import Mathlib

/-!
Verification development for the autograder core: a shallow embedding of the
string utilities, the captured-process executor, the submission dispatcher,
the ingress tag extraction and the test-runner state machine, together with
theorems about the properties the specification states for them.

Strings are modelled at character level as `List Char`.
-/

namespace Autograder

/-! ### String utilities (utils.rs) -/

/-- The characters with the Unicode White_Space property, which is the set
trimmed by the string trim operation used by the source. -/
def rustWhitespaceChars : List Char :=
  ['\t', '\n', '\u000B', '\u000C', '\r', ' ', '\u0085', '\u00A0', '\u1680',
   '\u2000', '\u2001', '\u2002', '\u2003', '\u2004', '\u2005', '\u2006',
   '\u2007', '\u2008', '\u2009', '\u200A', '\u2028', '\u2029', '\u202F',
   '\u205F', '\u3000']

/-- Whitespace predicate used by trim in the source. -/
def isRustWS (c : Char) : Bool :=
  rustWhitespaceChars.contains c

/-- Trim whitespace from both ends of a character list (the trim performed at
the start of the single-linefeed conversion). -/
def trimList (s : List Char) : List Char :=
  (((s.dropWhile isRustWS).reverse.dropWhile isRustWS)).reverse

/-- The per-character transformation of the single-linefeed conversion: a
linefeed whose neighbours are both non-linefeeds becomes a space. -/
def slfTrans (p m n : Char) : Char :=
  if m = '\n' ∧ p ≠ '\n' ∧ n ≠ '\n' then ' ' else m

/-- The three-way zip in the single-linefeed conversion: character, previous
character and next character are walked in lockstep. -/
def slfZip : List Char → List Char → List Char → List Char
  | p :: ps, m :: ms, n :: ns => slfTrans p m n :: slfZip ps ms ns
  | _, _, _ => []

/-- Converts single linefeeds of the trimmed input to spaces, keeping the
first and last character and every linefeed that has a linefeed neighbour
(embedding of the single-linefeed-to-space conversion in utils.rs). -/
def single_linefeed_to_space (s : List Char) : List Char :=
  let t := trimList s
  if 2 ≤ t.length then
    t.take 1 ++ slfZip t (t.drop 1) (t.drop 2) ++ t.getLast?.toList
  else t

/-- Recursive description of the zip in the single-linefeed conversion,
carrying the previous character; used in proofs. -/
def slfStep (p : Char) : List Char → List Char
  | [] => []
  | [m] => [m]
  | m :: n :: rest => slfTrans p m n :: slfStep m (n :: rest)

/-- No lone linefeed: every linefeed other than the final element has a
linefeed neighbour, where `p` is the character preceding the list. -/
def NoLone : Char → List Char → Prop
  | _, [] => True
  | _, [_] => True
  | p, m :: n :: rest => ¬(m = '\n' ∧ p ≠ '\n' ∧ n ≠ '\n') ∧ NoLone m (n :: rest)

/-- HTML escaping of one character in a preformatted markdown block. -/
def escapeChar (c : Char) : List Char :=
  if c = '<' then "&lt;".toList
  else if c = '>' then "&gt;".toList
  else if c = '&' then "&amp;".toList
  else [c]

/-- HTML escaping of a string, character by character. -/
def pushEscape (s : List Char) : List Char :=
  (s.map escapeChar).flatten

/-- Markdown preformatted block with optional truncation: when a truncation
length is given and the input is longer, the first and last `ceil(cap/2)`
characters are kept around a TRUNCATED marker. -/
def md_preformatted_with_truncation (s : List Char) (truncate : Option Nat) :
    List Char :=
  let pre := "<pre>\n".toList
  let post := "\n</pre>".toList
  match truncate with
  | none => pre ++ pushEscape s ++ post
  | some offset =>
    let l := s.length
    let halfOffset := (offset + 1) / 2
    if halfOffset ≤ l ∧ offset < l then
      pre ++ pushEscape (s.take halfOffset) ++ "\n...\nTRUNCATED\n...\n".toList
        ++ pushEscape (s.drop (l - halfOffset)) ++ post
    else
      pre ++ pushEscape s ++ post

/-- Markdown preformatted block without truncation. -/
def md_preformatted (s : List Char) : List Char :=
  md_preformatted_with_truncation s none

/-- Number of occurrences of a (nonempty) pattern in a character list,
counting every start position. -/
def countOccurrences (pat : List Char) : List Char → Nat
  | [] => 0
  | c :: rest =>
    (if pat.isPrefixOf (c :: rest) then 1 else 0) + countOccurrences pat rest

/-! ### Captured-process executor (utils.rs, syscommand_timeout) -/

/-- ASCII whitespace as used by the byte-level ascii-whitespace test. -/
def isAsciiWS (c : Char) : Bool :=
  c = ' ' || c = '\t' || c = '\n' || c = '\x0c' || c = '\r'

/-- Exit status of a reaped child process. -/
inductive ExitStatusM where
  | exited (code : Int)
  | signaled (sig : Int)
  | otherStatus (v : Int)
  | undetermined
deriving DecidableEq, Repr

/-- Errors of the captured-process executor. -/
inductive SyscommandErrorM where
  | outputLimitExceeded (limit : Nat)
  | timeoutErr (stdout stderr : Option (List Char))
  | unexpectedCode (code : Int)
  | signaled (sig : Int)
  | otherExit (v : Int)
  | undetermined
deriving DecidableEq, Repr

/-- Successful output of the captured-process executor. -/
structure SyscommandOutputM where
  code : Int
  stdout : List Char
  stderr : List Char
deriving DecidableEq, Repr

/-- The drain loop of the captured-process executor: each event is a read of a
chunk from stdout (`true`) or stderr (`false`); the chunk is appended to the
corresponding buffer and the buffer length is checked against its cap. -/
def readStreams (maxOut maxErr : Nat) :
    List (Bool × List Char) → List Char → List Char →
    Except Nat (List Char × List Char)
  | [], bufOut, bufErr => .ok (bufOut, bufErr)
  | (true, chunk) :: rest, bufOut, bufErr =>
    if maxOut < (bufOut ++ chunk).length then .error maxOut
    else readStreams maxOut maxErr rest (bufOut ++ chunk) bufErr
  | (false, chunk) :: rest, bufOut, bufErr =>
    if maxErr < (bufErr ++ chunk).length then .error maxErr
    else readStreams maxOut maxErr rest bufOut (bufErr ++ chunk)

/-- The captured-process executor over a script of read events and a final
exit status (`none` models reaching the deadline without an exit).  The
second component records whether the child was killed. -/
def syscommand_timeout (maxOut maxErr : Nat) (events : List (Bool × List Char))
    (stat : Option ExitStatusM) (expectedCode : Option Int) :
    Except SyscommandErrorM SyscommandOutputM × Bool :=
  match readStreams maxOut maxErr events [] [] with
  | .error cap => (.error (.outputLimitExceeded cap), true)
  | .ok (bufOut, bufErr) =>
    match stat with
    | some (.exited code) =>
      if expectedCode.all (fun ec => ec == code) then
        (.ok { code := code, stdout := bufOut, stderr := bufErr }, false)
      else
        (.error (.unexpectedCode code), false)
    | some (.signaled sig) => (.error (.signaled sig), false)
    | some (.otherStatus v) => (.error (.otherExit v), false)
    | some .undetermined => (.error .undetermined, false)
    | none => (.error (.timeoutErr (some bufOut) (some bufErr)), true)

/-- Total length of the chunks read for one stream in an event script. -/
def streamTotal (isOut : Bool) (events : List (Bool × List Char)) : Nat :=
  ((events.filter (fun e => e.1 = isOut)).map (fun e => e.2.length)).sum

/-! ### Output treatment for stream comparison (testrunner.rs) -/

/-- Trim ASCII whitespace from both ends. -/
def trimAscii (s : List Char) : List Char :=
  ((s.dropWhile isAsciiWS).reverse.dropWhile isAsciiWS).reverse

/-- Treats a captured or expected stream before comparison: removing all
ASCII whitespace takes precedence over trimming. -/
def treat_output (s : List Char) (trim removeWhitespace : Bool) : List Char :=
  if removeWhitespace then s.filter (fun c => !(isAsciiWS c))
  else if trim then trimAscii s
  else s

/-- The found-match loop of the solution runner: the received stream matches
when some expected alternative is equal to it after both are treated with the
same flags. -/
def streamMatches (received : List Char) (alternatives : List (List Char))
    (trim removeWhitespace : Bool) : Bool :=
  alternatives.foldl
    (fun foundMatch alt =>
      foundMatch ||
        (treat_output received trim removeWhitespace
          == treat_output alt trim removeWhitespace))
    false

/-! ### Persistence store and submission dispatcher (db/conn.rs) -/

/-- A row of the submissions table, restricted to the columns the dispatcher
reads and writes. -/
structure Submission where
  id : Nat
  dateSubmitted : Nat
  assignedRunner : Option Nat
  execFinished : Bool
  githubRepo : String
deriving DecidableEq, Repr

/-- A submission is queued when it is unfinished and unassigned. -/
def isQueued (s : Submission) : Bool :=
  !s.execFinished && s.assignedRunner.isNone

/-- A submission is in flight when it is unfinished and assigned. -/
def isInFlight (s : Submission) : Bool :=
  !s.execFinished && s.assignedRunner.isSome

/-- The WHERE clause of the dispatch query: queued, and no in-flight
submission in the table has the same repository. -/
def eligible (db : List Submission) (s : Submission) : Bool :=
  isQueued s &&
    !(db.any (fun t => isInFlight t && t.githubRepo == s.githubRepo))

/-- ORDER BY date_submitted ASC LIMIT 1: the first row with minimal
submission date. -/
def pickOldest : List Submission → Option Submission
  | [] => none
  | s :: rest =>
    match pickOldest rest with
    | none => some s
    | some t => if t.dateSubmitted < s.dateSubmitted then some t else some s

/-- The atomic dispatch query: select the oldest eligible queued submission,
set its assigned runner, and return the updated row together with the updated
table; return none and the unchanged table when no submission qualifies. -/
def try_assign_submission (db : List Submission) (runnerId : Nat) :
    Option Submission × List Submission :=
  match pickOldest (db.filter (eligible db)) with
  | none => (none, db)
  | some c =>
    let c2 := { c with assignedRunner := some runnerId }
    (some c2, db.map (fun t => if t.id = c.id then c2 else t))

/-- A sequence of dispatch calls on a fixed queue: each call may assign one
submission and updates the table for the following calls.  Returns the list
of assigned submissions in call order and the final table. -/
def try_assign_seq (runnerIds : List Nat) (db : List Submission) :
    List Submission × List Submission :=
  match runnerIds with
  | [] => ([], db)
  | r :: rest =>
    match try_assign_submission db r with
    | (none, db2) =>
      try_assign_seq rest db2
    | (some s, db2) =>
      let res := try_assign_seq rest db2
      (s :: res.1, res.2)

/-! ### Ingress grading-tag extraction (bin/server/api.rs, db/conn.rs) -/

/-- Lexicographic strict order on character lists (the order of the ordered
set used to deduplicate grading tags). -/
def lexLt : List Char → List Char → Bool
  | [], [] => false
  | [], _ :: _ => true
  | _ :: _, [] => false
  | a :: as, b :: bs =>
    if a < b then true else if b < a then false else lexLt as bs

/-- Insertion into a sorted duplicate-free list, modelling ordered-set
insertion. -/
def insertSortedLex (x : List Char) : List (List Char) → List (List Char)
  | [] => [x]
  | y :: ys =>
    if lexLt x y then x :: y :: ys
    else if x = y then y :: ys
    else y :: insertSortedLex x ys

/-- Collecting a list into an ordered set and back into a list: the result is
sorted and duplicate-free. -/
def btreeSetOfList (l : List (List Char)) : List (List Char) :=
  l.foldl (fun acc x => insertSortedLex x acc) []

/-- Keeps a token of the commit message when it starts with a marker
character, stripping the marker. -/
def tagOfToken (tok : List Char) : Option (List Char) :=
  match tok with
  | [] => none
  | c :: rest => if c = '#' ∨ c = '%' then some rest else none

/-- Grading-tag extraction of the ingress: split the push-event message on
the space character, keep the tokens starting with a marker with the marker
stripped, and deduplicate through an ordered set. -/
def extract_grading_tags (message : List Char) : List (List Char) :=
  btreeSetOfList ((message.splitOn ' ').filterMap tagOfToken)

/-- Accumulating tokenizer: gathers the current token in reverse and emits it
at each whitespace boundary. -/
def wsTokenizeAux : List Char → List Char → List (List Char)
  | [], cur => if cur = [] then [] else [cur.reverse]
  | c :: rest, cur =>
    if Char.isWhitespace c then
      if cur = [] then wsTokenizeAux rest []
      else cur.reverse :: wsTokenizeAux rest []
    else wsTokenizeAux rest (c :: cur)

/-- Splits a character list into its maximal whitespace-free tokens. -/
def wsTokenize (l : List Char) : List (List Char) :=
  wsTokenizeAux l []

/-- Deduplication keeping first occurrences. -/
def dedupKeepFirst (l : List (List Char)) : List (List Char) :=
  l.foldl (fun acc x => if x ∈ acc then acc else acc ++ [x]) []

/-- Grading-tag extraction as the specification words it: tokenise the
message on whitespace, keep exactly the tokens starting with a marker
character, and deduplicate. -/
def specExtractGradingTags (message : List Char) : List (List Char) :=
  dedupKeepFirst
    ((wsTokenize message).filter
      (fun tok => tok.head? == some '#' || tok.head? == some '%'))

/-- The columns of the row inserted for an incoming submission that the
ingress controls. -/
structure NewGitHubSubmission where
  dateSubmitted : Nat
  gradingTags : List Char
  execFinished : Bool
  execStatusCode : Int
  githubOrg : String
  githubRepo : String
  githubUser : String
  githubCommit : String
deriving DecidableEq, Repr

/-- The integer value of the NotStarted submission status code. -/
def notStartedCode : Int := 0

/-- Builds the submission row inserted by the ingress: tags joined with
semicolons, not finished, status NotStarted. -/
def register_github_submission (gradingTags : List (List Char))
    (user org repo commit : String) (now : Nat) : NewGitHubSubmission :=
  { dateSubmitted := now
    gradingTags := List.intercalate [';'] gradingTags
    execFinished := false
    execStatusCode := notStartedCode
    githubOrg := org
    githubRepo := repo
    githubUser := user
    githubCommit := commit }

/-! ### Test runner data model (bin/runner/testrunner.rs) -/

/-- A test case; the claims below depend only on its name and timeout. -/
structure TestM where
  name : String
  timeout : Nat
deriving DecidableEq, Repr

/-- Details recorded for a failed test. -/
structure TestFailureDetailsM where
  message : Option String
  mismatchCode : Option (Int × Int)
  mismatchStdout : Option (List Char × List (List Char))
  mismatchStderr : Option (List Char × List (List Char))
  capturedCode : Option Int
  capturedStdout : Option (List Char)
  capturedStderr : Option (List Char)
  generatedAsm : Option (List Char)
deriving DecidableEq, Repr

/-- Empty failure details (the Default implementation). -/
def TestFailureDetailsM.default : TestFailureDetailsM :=
  { message := none, mismatchCode := none, mismatchStdout := none
    mismatchStderr := none, capturedCode := none, capturedStdout := none
    capturedStderr := none, generatedAsm := none }

/-- Outcome of one test case; failed tests carry optional details, elided
when too many tests have failed. -/
inductive TestResultM where
  | testOk
  | testTimeout (capturedStdout capturedStderr : Option (List Char))
  | testOutputLimitExceeded (limit : Nat)
  | testFailed (details : Option TestFailureDetailsM)
deriving DecidableEq, Repr

/-- Outcome of the per-tag build phase. -/
inductive BuildResultM where
  | buildOk
  | buildTimeout (timeout : Nat) (capturedStdout capturedStderr : Option (List Char))
  | buildSourceNotFound (expectedDir : String)
  | buildOutputLimitExceeded (limit : Nat)
  | buildProhibitedFiles (foundFiles : List (String × String))
  | buildFailed (message : Option String) (code : Option Int)
      (capturedStdout capturedStderr : Option (List Char))
deriving DecidableEq, Repr

/-- Causes of overall run failure. -/
inductive FailureCauseM where
  | totalTimeout (t : Nat)
  | buildTimeout
  | testTimeout
  | outputLengthBreached
  | interrupted
deriving DecidableEq, Repr

/-- Iterator over one test group: a cursor into its subgroups and own tests,
plus the results recorded so far. -/
inductive TestGroupIterM where
  | mk (title : String) (subgroupIterators : List TestGroupIterM)
      (nextSubgroup nextTestIdx : Nat) (hasCheckedFirstTest : Bool)
      (tests : List TestM) (results : List TestResultM)

/-- The subgroup iterators of a group iterator. -/
def TestGroupIterM.subgroupIterators : TestGroupIterM → List TestGroupIterM
  | .mk _ subs _ _ _ _ _ => subs

/-- The cursor into the subgroups of a group iterator. -/
def TestGroupIterM.nextSubgroup : TestGroupIterM → Nat
  | .mk _ _ nextSub _ _ _ _ => nextSub

/-- The cursor into the own tests of a group iterator. -/
def TestGroupIterM.nextTestIdx : TestGroupIterM → Nat
  | .mk _ _ _ idx _ _ _ => idx

/-- The tests directly contained in a group iterator. -/
def TestGroupIterM.tests : TestGroupIterM → List TestM
  | .mk _ _ _ _ _ tests _ => tests

/-- The results recorded directly in a group iterator. -/
def TestGroupIterM.results : TestGroupIterM → List TestResultM
  | .mk _ _ _ _ _ _ results => results

mutual

/-- Peek the next test of a group iterator: first the subgroup under the
cursor, then the own test under the test cursor. -/
def TestGroupIterM.peek : TestGroupIterM → Option TestM
  | .mk _ subs nextSub idx _ tests _ =>
    match peekAux nextSub subs with
    | some (some t) => some t
    | _ => tests[idx]?

/-- Looks up the group at the given index and peeks it; `none` when the index
is out of bounds. -/
def peekAux : Nat → List TestGroupIterM → Option (Option TestM)
  | _, [] => none
  | 0, g :: _ => some g.peek
  | i + 1, _ :: gs => peekAux i gs

end

mutual

/-- Advance a group iterator to its next test.  Returns the updated iterator
and whether a next test exists. -/
def TestGroupIterM.nextTest : TestGroupIterM → TestGroupIterM × Bool
  | .mk title subs nextSub idx checked tests results =>
    match nextTestAux nextSub subs with
    | (subs2, nextSub2, true) =>
      (.mk title subs2 nextSub2 idx checked tests results, true)
    | (subs2, nextSub2, false) =>
      if !checked then
        (.mk title subs2 nextSub2 idx true tests results,
         decide (idx < tests.length))
      else if idx < tests.length then
        (.mk title subs2 nextSub2 (idx + 1) checked tests results,
         decide (idx + 1 < tests.length))
      else
        (.mk title subs2 nextSub2 idx checked tests results, false)

/-- The subgroup advancing loop: starting at the cursor, advance each group
in turn until one reports a next test; groups advanced without success stay
updated.  Returns the updated list, the final cursor, and whether a next test
was found. -/
def nextTestAux : Nat → List TestGroupIterM → List TestGroupIterM × Nat × Bool
  | i, [] => ([], i, false)
  | 0, g :: gs =>
    match g.nextTest with
    | (g2, true) => (g2 :: gs, 0, true)
    | (g2, false) =>
      match nextTestAux 0 gs with
      | (gs2, n, r) => (g2 :: gs2, n + 1, r)
  | i + 1, g :: gs =>
    match nextTestAux i gs with
    | (gs2, n, r) => (g :: gs2, n + 1, r)

end

mutual

/-- Record a test result in a group iterator: descend into the subgroup under
the cursor when it exists, otherwise append at the own test cursor, failing
when a result would be recorded at the wrong position. -/
def TestGroupIterM.addTestResult (res : TestResultM) :
    TestGroupIterM → Except String TestGroupIterM
  | .mk title subs nextSub idx checked tests results =>
    match addTestResultAux res nextSub subs with
    | some r => r.map (fun subs2 => .mk title subs2 nextSub idx checked tests results)
    | none =>
      if results.length ≠ idx then
        .error "Internal error: Adding result to the wrong test case."
      else
        .ok (.mk title subs nextSub idx checked tests (results ++ [res]))

/-- Descends to the group at the given index to record a result; `none` when
the index is out of bounds. -/
def addTestResultAux (res : TestResultM) :
    Nat → List TestGroupIterM → Option (Except String (List TestGroupIterM))
  | _, [] => none
  | 0, g :: gs => some ((g.addTestResult res).map (fun g2 => g2 :: gs))
  | i + 1, g :: gs =>
    (addTestResultAux res i gs).map (fun e => e.map (fun gs2 => g :: gs2))

end

/-- Build configuration of a tag. -/
structure TagBuildConfigM where
  srcdir : String
  cmd : List String
  timeout : Nat
  prohibitBinaryFiles : Bool
  allowedBinaryFiles : List String
  allowedBinaryMimetypes : List String
deriving DecidableEq, Repr

/-- A test group as loaded from the configuration. -/
inductive TestGroupM where
  | mk (title : String) (tests : List TestM) (subgroups : List TestGroupM)

/-- A tag as loaded from the configuration. -/
structure TagM where
  name : String
  testGroups : List TestGroupM
  build : TagBuildConfigM

mutual

/-- Fresh iterator over a test group. -/
def TestGroupIterM.new : TestGroupM → TestGroupIterM
  | .mk title tests subgroups => .mk title (newGroupList subgroups) 0 0 false tests []

/-- Fresh iterators over a list of test groups. -/
def newGroupList : List TestGroupM → List TestGroupIterM
  | [] => []
  | g :: gs => TestGroupIterM.new g :: newGroupList gs

end

/-- Iterator over one tag: its test group iterators, a cursor, and the build
result once the build has run. -/
structure TagIterM where
  tagName : String
  buildConf : TagBuildConfigM
  testgroupIterators : List TestGroupIterM
  nextTestgroup : Nat
  buildResult : Option BuildResultM

/-- Fresh iterator over a tag. -/
def TagIterM.new (tag : TagM) : TagIterM :=
  { tagName := tag.name
    buildConf := tag.build
    testgroupIterators := newGroupList tag.testGroups
    nextTestgroup := 0
    buildResult := none }

/-- Peek the next test of a tag. -/
def TagIterM.peek (tag : TagIterM) : Option TestM :=
  match peekAux tag.nextTestgroup tag.testgroupIterators with
  | some r => r
  | none => none

/-- Whether the build of this tag has been attempted. -/
def TagIterM.hasBuilt (tag : TagIterM) : Bool :=
  tag.buildResult.isSome

/-- Whether the build of this tag succeeded. -/
def TagIterM.isBuildOk (tag : TagIterM) : Bool :=
  match tag.buildResult with
  | some .buildOk => true
  | _ => false

/-- Record a build result; duplicate build results are an error. -/
def TagIterM.addBuildResult (tag : TagIterM) (res : BuildResultM) :
    Except String TagIterM :=
  match tag.buildResult with
  | some _ => .error "Adding duplicate build results"
  | none => .ok { tag with buildResult := some res }

/-- Advance a tag to its next test. -/
def TagIterM.nextTest (tag : TagIterM) : TagIterM × Bool :=
  match nextTestAux tag.nextTestgroup tag.testgroupIterators with
  | (gs2, n, r) =>
    ({ tag with testgroupIterators := gs2, nextTestgroup := n }, r)

/-- Record a test result in the group under the tag cursor. -/
def TagIterM.addTestResult (tag : TagIterM) (res : TestResultM) :
    Except String TagIterM :=
  match addTestResultAux res tag.nextTestgroup tag.testgroupIterators with
  | none => .error "Internal Error: No test group iterator to add test result to"
  | some e => e.map (fun gs2 => { tag with testgroupIterators := gs2 })

/-- The state of the test runner that the claims below are about. -/
structure TestRunnerHandleM where
  maxOutput : Nat
  truncateLen : Nat
  submissionId : Nat
  nextTagIndex : Nat
  tagIterators : List TagIterM
  tagDerivedFrom : String → List String
  testsFailed : Nat
  testsMaxShown : Nat
  deadlineTime : Nat
  cleanedUp : Bool
  failureCause : Option FailureCauseM

/-- The runner is finished when the tags are exhausted, cleanup has run, or a
failure cause is set. -/
def TestRunnerHandleM.isFinished (st : TestRunnerHandleM) : Bool :=
  decide (st.tagIterators.length ≤ st.nextTagIndex) || st.cleanedUp
    || st.failureCause.isSome

/-- Record a test result at the handle level: failed tests bump the failure
counter and are elided beyond the shown maximum; timeouts and output-limit
breaches set the failure cause. -/
def TestRunnerHandleM.addTestResult (st : TestRunnerHandleM)
    (res : TestResultM) : Except String TestRunnerHandleM :=
  let stAdd :
      TestRunnerHandleM × TestResultM :=
    match res with
    | .testFailed details =>
      ({ st with testsFailed := st.testsFailed + 1 },
       if st.testsMaxShown < st.testsFailed + 1 then .testFailed none
       else .testFailed details)
    | .testTimeout a b =>
      (if st.failureCause.isNone then
         { st with failureCause := some .testTimeout }
       else st,
       .testTimeout a b)
    | .testOutputLimitExceeded l =>
      (if st.failureCause.isNone then
         { st with failureCause := some .outputLengthBreached }
       else st,
       .testOutputLimitExceeded l)
    | r => (st, r)
  match stAdd.1.tagIterators[stAdd.1.nextTagIndex]? with
  | none => .error "No tag to run, cannot add result"
  | some tag =>
    (tag.addTestResult stAdd.2).map
      (fun tag2 =>
        { stAdd.1 with
            tagIterators := stAdd.1.tagIterators.set stAdd.1.nextTagIndex tag2 })

/-- Advance the current tag to its next test at the handle level. -/
def TestRunnerHandleM.nextTest (st : TestRunnerHandleM) :
    Except String (TestRunnerHandleM × Bool) :=
  match st.tagIterators[st.nextTagIndex]? with
  | none => .error "No tag to run, cannot progress"
  | some tag =>
    match tag.nextTest with
    | (tag2, b) =>
      .ok ({ st with tagIterators := st.tagIterators.set st.nextTagIndex tag2 }, b)

/-- Record a sequence of raw test results at the handle level. -/
def processResults (st : TestRunnerHandleM) :
    List TestResultM → Except String TestRunnerHandleM
  | [] => .ok st
  | r :: rest =>
    match st.addTestResult r with
    | .error e => .error e
    | .ok st2 => processResults st2 rest

/-- External-world inputs of one runner step: the current time, the build
outcome should a build run, and the raw outcome should a test run. -/
structure StepWorld where
  now : Nat
  build : BuildResultM
  rawResult : TestResultM

/-- One step of the test runner.  Entering at or past the deadline sets the
total-timeout failure cause.  Otherwise, the current tag is built if it has
no build result yet, skipped if its build did not succeed, advanced to the
next tag if it has no further test, and otherwise its next test is executed
and recorded.  The second component names the executed test, if any. -/
def runNext (w : StepWorld) (st : TestRunnerHandleM) :
    Except String (TestRunnerHandleM × Option String) :=
  if st.cleanedUp then
    .error "Fatal: Attempting run a test case after performing cleanup."
  else if st.deadlineTime ≤ w.now then
    .ok ({ st with failureCause := some (.totalTimeout w.now) }, none)
  else
    match st.tagIterators[st.nextTagIndex]? with
    | none => .error "No more tests to run"
    | some tag =>
      if tag.hasBuilt = false then
        match tag.addBuildResult w.build with
        | .error e => .error e
        | .ok tag1 =>
          let fc : Option FailureCauseM :=
            match w.build with
            | .buildTimeout _ _ _ => some .buildTimeout
            | .buildOutputLimitExceeded _ => some .outputLengthBreached
            | _ => st.failureCause
          match tag1.nextTest with
          | (tag2, _) =>
            .ok ({ st with
                     tagIterators := st.tagIterators.set st.nextTagIndex tag2
                     failureCause := fc }, none)
      else if tag.isBuildOk = false then
        .ok ({ st with nextTagIndex := st.nextTagIndex + 1 }, none)
      else
        match tag.peek with
        | none => .ok ({ st with nextTagIndex := st.nextTagIndex + 1 }, none)
        | some test =>
          match st.addTestResult w.rawResult with
          | .error e => .error e
          | .ok st2 =>
            match st2.nextTest with
            | .error e => .error e
            | .ok (st3, _) => .ok (st3, some test.name)

/-- The worker loop driving one runner: step while the runner is not
finished; a step error marks the runner interrupted.  Returns the final
state and the names of the executed tests. -/
def driverLoop : List StepWorld → TestRunnerHandleM →
    TestRunnerHandleM × List String
  | [], st => (st, [])
  | w :: ws, st =>
    if st.isFinished then (st, [])
    else
      match runNext w st with
      | .error _ =>
        ({ st with failureCause := some .interrupted
                   nextTagIndex := st.tagIterators.length }, [])
      | .ok (st2, executed) =>
        let res := driverLoop ws st2
        (res.1, executed.toList ++ res.2)

/-! ### Detail sections in the collected results -/

/-- Number of detail sections one stored result contributes in the result
collection: timeouts, output-limit breaches and failures with details each
append one detail section; passed tests and elided failures append none. -/
def TestResultM.detailWeight : TestResultM → Nat
  | .testOk => 0
  | .testTimeout _ _ => 1
  | .testOutputLimitExceeded _ => 1
  | .testFailed (some _) => 1
  | .testFailed none => 0

/-- Whether a stored result is a failure with retained details. -/
def TestResultM.isFailedSome : TestResultM → Bool
  | .testFailed (some _) => true
  | _ => false

/-- Whether a stored result is a timeout or an output-limit breach. -/
def TestResultM.isTimeoutOrLimit : TestResultM → Bool
  | .testTimeout _ _ => true
  | .testOutputLimitExceeded _ => true
  | _ => false

/-- Detail sections contributed by the result scan of one group: the scan
walks the tests zipped with the recorded results. -/
def zipDetailCount (tests : List TestM) (results : List TestResultM) : Nat :=
  ((tests.zip results).map (fun pr => pr.2.detailWeight)).sum

mutual

/-- Detail sections appended for one group iterator and its subgroups during
result collection. -/
def TestGroupIterM.detailCount : TestGroupIterM → Nat
  | .mk _ subs _ _ _ tests results =>
    zipDetailCount tests results + detailCountList subs

/-- Detail sections appended for a list of group iterators. -/
def detailCountList : List TestGroupIterM → Nat
  | [] => 0
  | g :: gs => g.detailCount + detailCountList gs

end

mutual

/-- Number of stored results satisfying a predicate in a group iterator and
its subgroups. -/
def TestGroupIterM.resultCount (p : TestResultM → Bool) : TestGroupIterM → Nat
  | .mk _ subs _ _ _ _ results => results.countP p + resultCountList p subs

/-- Number of stored results satisfying a predicate in a list of group
iterators. -/
def resultCountList (p : TestResultM → Bool) : List TestGroupIterM → Nat
  | [] => 0
  | g :: gs => g.resultCount p + resultCountList p gs

end

/-- Stored failures with retained details across the whole runner state. -/
def stateFailedSomeCount (st : TestRunnerHandleM) : Nat :=
  (st.tagIterators.map
    (fun tag => resultCountList TestResultM.isFailedSome tag.testgroupIterators)).sum

/-- Stored timeouts and output-limit breaches across the whole runner
state. -/
def stateTimeoutOrLimitCount (st : TestRunnerHandleM) : Nat :=
  (st.tagIterators.map
    (fun tag => resultCountList TestResultM.isTimeoutOrLimit tag.testgroupIterators)).sum

/-- Total number of detail sections in the final collected markdown: the
result collection appends detail sections only for tags whose build
succeeded. -/
def totalDetailSections (st : TestRunnerHandleM) : Nat :=
  (st.tagIterators.map
    (fun tag =>
      match tag.buildResult with
      | some .buildOk => detailCountList tag.testgroupIterators
      | _ => 0)).sum

/-! ### Tag collection of the runner constructor (TestRunnerHandle::new) -/

/-- One step of the tag-collection loop: a tag already recorded only gains
the current alias in its derived-from entry; a new tag also contributes a
fresh iterator.  The derived-from table is modelled as a function with the
empty list standing for an absent entry; recorded entries are never empty. -/
def collectTagStep (t : String)
    (acc2 : (String → List String) × List TagIterM) (tag : TagM) :
    (String → List String) × List TagIterM :=
  if acc2.1 tag.name = [] then
    (fun m => if m = tag.name then [t] else acc2.1 m,
     acc2.2 ++ [TagIterM.new tag])
  else
    (fun m => if m = tag.name then acc2.1 m ++ [t] else acc2.1 m,
     acc2.2)

/-- The loop of the runner constructor that collects the tags to run: for
each requested alias in order, every tag of its group is folded through
one collection step. -/
def collectTagsAux (tagGroups : String → Option (List TagM)) :
    List String → ((String → List String) × List TagIterM) →
    Except String ((String → List String) × List TagIterM)
  | [], acc => .ok acc
  | t :: rest, acc =>
    match tagGroups t with
    | none => .error t
    | some vecTag =>
      collectTagsAux tagGroups rest (vecTag.foldl (collectTagStep t) acc)

/-- Collects the tags to run for a list of requested aliases. -/
def collectTags (tagGroups : String → Option (List TagM))
    (gradingTags : List String) :
    Except String ((String → List String) × List TagIterM) :=
  collectTagsAux tagGroups gradingTags ((fun _ => []), [])

/-- All the aliases of the request, in request order and with multiplicity,
whose group contains a tag with the given name. -/
def occurrencesOf (tagGroups : String → Option (List TagM))
    (gradingTags : List String) (n : String) : List String :=
  (gradingTags.map
    (fun t =>
      (((tagGroups t).getD []).filter (fun tag => tag.name == n)).map
        (fun _ => t))).flatten

/-! ### The GenASMAndRun test kind (testrunner.rs) -/

/-- The configuration of a GenASMAndRun test: a generation step, an assembly
step, a compilation step, and a final run step with its own expectations. -/
structure TestkindBaseGenASMAndRunM where
  bin : String
  args : List String
  code : Int
  ignoreStdin : Bool
  stdin : List Char
  ignoreStderr : Bool
  trimStderr : Bool
  stripWhitespaceStderr : Bool
  stderr : List Char
  assembleCmd : List String
  assembleCode : Int
  compileCmd : List String
  compileCode : Int
  runCmd : List String
  runCode : Int
  runIgnoreStdin : Bool
  runStdin : List Char
  runIgnoreStdout : Bool
  runTrimStdout : Bool
  runStdout : List Char
  runStripWhitespaceStdout : Bool
  runIgnoreStderr : Bool
  runTrimStderr : Bool
  runStripWhitespaceStderr : Bool
  runStderr : List Char
deriving DecidableEq, Repr

/-- The arguments handed to the assembly grading helper. -/
structure GradeASMArgsM where
  testsDir : String
  asmContents : List Char
  asmCmd : List String
  asmCode : Option Int
  compileCmd : List String
  compileCode : Option Int
  runCmd : List String
  stdin : Option (List Char)
  expectCode : Option Int
  stdoutExpect : Option (List Char)
  stdoutTrim : Bool
  stdoutRmWhitespace : Bool
  stderrExpect : Option (List Char)
  stderrTrim : Bool
  stderrRmWhitespace : Bool
  timeout : Nat
deriving DecidableEq, Repr

/-- Construction of the assembly grading arguments in the GenASMAndRun arm of
the runner step, exactly as the source builds them from the test
configuration. -/
def mkGradeASMArgs (conf : TestkindBaseGenASMAndRunM) (testsDir : String)
    (asmContents : List Char) (testTimeout : Nat) : GradeASMArgsM :=
  { testsDir := testsDir
    asmContents := asmContents
    asmCmd := conf.assembleCmd
    asmCode := some conf.assembleCode
    compileCmd := conf.compileCmd
    compileCode := some conf.compileCode
    runCmd := conf.runCmd
    stdin := if conf.runIgnoreStdin then none else some conf.stdin
    expectCode := some conf.runCode
    stdoutExpect := if conf.runIgnoreStdout then none else some conf.runStdout
    stdoutTrim := conf.runTrimStdout
    stdoutRmWhitespace := conf.runStripWhitespaceStdout
    stderrExpect := if conf.runIgnoreStderr then none else some conf.runStderr
    stderrTrim := conf.runTrimStderr
    stderrRmWhitespace := conf.runStripWhitespaceStderr
    timeout := testTimeout }

/-- The command line of the final run step in the assembly grading helper. -/
def gradeRunCommand (containerName : String) (args : GradeASMArgsM) :
    List String :=
  ["podman", "exec", "-w", "/tmp/grading"]
    ++ (if args.stdin.isSome then ["-i"] else [])
    ++ [containerName] ++ args.runCmd

/-- Exit-code mismatch of the final run step. -/
def gradeRunCodeStatus (args : GradeASMArgsM) (output : SyscommandOutputM) :
    Option (Int × Int) :=
  args.expectCode.bind
    (fun c => if output.code ≠ c then some (output.code, c) else none)

/-- Standard-output mismatch of the final run step: received and expected are
treated with the same flags before the comparison. -/
def gradeRunStdoutStatus (args : GradeASMArgsM) (output : SyscommandOutputM) :
    Option (List Char × List (List Char)) :=
  match args.stdoutExpect with
  | some expect =>
    if treat_output output.stdout args.stdoutTrim args.stdoutRmWhitespace
        ≠ treat_output expect args.stdoutTrim args.stdoutRmWhitespace then
      some (output.stdout, [expect])
    else none
  | none => none

/-- Standard-error mismatch of the final run step. -/
def gradeRunStderrStatus (args : GradeASMArgsM) (output : SyscommandOutputM) :
    Option (List Char × List (List Char)) :=
  match args.stderrExpect with
  | some expect =>
    if treat_output output.stderr args.stderrTrim args.stderrRmWhitespace
        ≠ treat_output expect args.stderrTrim args.stderrRmWhitespace then
      some (output.stderr, [expect])
    else none
  | none => none

/-- Whether the final run step of the assembly grading helper fails for the
given process output. -/
def gradeRunFailed (args : GradeASMArgsM) (output : SyscommandOutputM) : Bool :=
  (gradeRunCodeStatus args output).isSome
    || (gradeRunStdoutStatus args output).isSome
    || (gradeRunStderrStatus args output).isSome

/-- The chunks read for one stream, concatenated. -/
def chunksOf (isOut : Bool) (evs : List (Bool × List Char)) : List Char :=
  ((evs.filter (fun e => e.1 = isOut)).map (fun e => e.2)).flatten

/-- A GenASMAndRun configuration whose generation stdin and run stdin
differ, exhibiting which field the run step receives. -/
def bugConf : TestkindBaseGenASMAndRunM :=
  { bin := "c", args := [], code := 0, ignoreStdin := false
    stdin := ['G'], ignoreStderr := true, trimStderr := false
    stripWhitespaceStderr := false, stderr := []
    assembleCmd := ["as"], assembleCode := 0
    compileCmd := ["cc"], compileCode := 0
    runCmd := ["run"], runCode := 0
    runIgnoreStdin := false, runStdin := ['R']
    runIgnoreStdout := false, runTrimStdout := false
    runStdout := ['o'], runStripWhitespaceStdout := false
    runIgnoreStderr := false, runTrimStderr := false
    runStripWhitespaceStderr := false, runStderr := [] }

/-- A sample step world used to evaluate the runner step at its deadline. -/
def sampleWorld : StepWorld :=
  { now := 5, build := .buildOk, rawResult := .testOk }

/-- A sample runner state at its deadline. -/
def sampleState : TestRunnerHandleM :=
  { maxOutput := 0, truncateLen := 0, submissionId := 0, nextTagIndex := 0
    tagIterators := [], tagDerivedFrom := fun _ => [], testsFailed := 0
    testsMaxShown := 0, deadlineTime := 5, cleanedUp := false
    failureCause := none }

/-- A sample build configuration. -/
def sampleBuildConf : TagBuildConfigM :=
  { srcdir := "src", cmd := ["make"], timeout := 60
    prohibitBinaryFiles := false, allowedBinaryFiles := []
    allowedBinaryMimetypes := [] }

/-- A sample tag named T. -/
def sampleTagT : TagM :=
  { name := "T", testGroups := [], build := sampleBuildConf }

/-- A sample tag-group table with two aliases resolving to the same tag. -/
def sampleTagGroups : String → Option (List TagM) :=
  fun t => if t = "g1" then some [sampleTagT]
    else if t = "g2" then some [sampleTagT] else none

/-- A sample test case. -/
def ceTest : TestM :=
  { name := "t1", timeout := 10 }

/-- A fresh group iterator holding one test and no recorded result. -/
def ceGroup : TestGroupIterM :=
  .mk "G" [] 0 0 true [ceTest] []

/-- A tag iterator whose build succeeded and whose single group is
`ceGroup`. -/
def ceTag : TagIterM :=
  { tagName := "T", buildConf := sampleBuildConf
    testgroupIterators := [ceGroup], nextTestgroup := 0
    buildResult := some .buildOk }

/-- A runner state with one built tag and a shown-failure budget of zero. -/
def ceState : TestRunnerHandleM :=
  { maxOutput := 0, truncateLen := 0, submissionId := 0, nextTagIndex := 0
    tagIterators := [ceTag], tagDerivedFrom := fun _ => [], testsFailed := 0
    testsMaxShown := 0, deadlineTime := 5, cleanedUp := false
    failureCause := none }

/-! ## Theorems -/

/-! ### C10: stream comparison treatment -/

theorem foldl_or_eq_any (g : List Char → Bool) :
    ∀ (alts : List (List Char)) (acc : Bool),
      alts.foldl (fun fm alt => fm || g alt) acc = (acc || alts.any g) := by
  intro alts
  induction alts with
  | nil => intro acc; simp
  | cons a rest ih =>
    intro acc
    simp only [List.foldl_cons, List.any_cons, ih]
    cases acc <;> simp

theorem streamMatches_eq_any (received : List Char)
    (alternatives : List (List Char)) (trim rw : Bool) :
    streamMatches received alternatives trim rw
      = alternatives.any
          (fun alt => treat_output received trim rw == treat_output alt trim rw) := by
  unfold streamMatches
  rw [foldl_or_eq_any]
  simp

/-- C10: every stream comparison treats the received output and each expected
alternative with the same treatment function before comparing for equality,
and when strip-whitespace is enabled all ASCII whitespace is removed and the
trim flag has no effect. -/
theorem treat_output_spec :
    (∀ (received : List Char) (alternatives : List (List Char)) (trim rw : Bool),
      streamMatches received alternatives trim rw = true ↔
        ∃ alt ∈ alternatives,
          treat_output received trim rw = treat_output alt trim rw)
    ∧ (∀ (s : List Char) (trim : Bool),
        treat_output s trim true = s.filter (fun c => !(isAsciiWS c)))
    ∧ (∀ (s : List Char) (trim trim2 : Bool),
        treat_output s trim true = treat_output s trim2 true)
    ∧ (∀ (received : List Char) (alternatives : List (List Char)) (trim trim2 : Bool),
        streamMatches received alternatives trim true
          = streamMatches received alternatives trim2 true) := by
  have h2 : ∀ (s : List Char) (trim : Bool),
      treat_output s trim true = s.filter (fun c => !(isAsciiWS c)) := by
    intro s trim; simp [treat_output]
  refine ⟨?_, h2, ?_, ?_⟩
  · intro received alternatives trim rw
    rw [streamMatches_eq_any, List.any_eq_true]
    constructor
    · rintro ⟨alt, hmem, heq⟩
      exact ⟨alt, hmem, by simpa using heq⟩
    · rintro ⟨alt, hmem, heq⟩
      exact ⟨alt, hmem, by simpa using heq⟩
  · intro s trim trim2
    rw [h2, h2]
  · intro received alternatives trim trim2
    rw [streamMatches_eq_any, streamMatches_eq_any]
    induction alternatives with
    | nil => rfl
    | cons a rest ih =>
      simp only [List.any_cons, ih, h2]

/-! ### C3: output caps of the captured-process executor -/

theorem readStreams_ok_bounds (mo me : Nat) :
    ∀ (evs : List (Bool × List Char)) (bo be bo2 be2 : List Char),
      readStreams mo me evs bo be = .ok (bo2, be2) →
      bo.length ≤ mo → be.length ≤ me →
      bo2.length ≤ mo ∧ be2.length ≤ me := by
  intro evs
  induction evs with
  | nil =>
    intro bo be bo2 be2 h hbo hbe
    simp only [readStreams] at h
    injection h with h
    injection h with h1 h2
    subst h1; subst h2
    exact ⟨hbo, hbe⟩
  | cons ev rest ih =>
    intro bo be bo2 be2 h hbo hbe
    obtain ⟨isOut, chunk⟩ := ev
    cases isOut
    · simp only [readStreams] at h
      split at h
      · simp at h
      · rename_i hle
        exact ih bo (be ++ chunk) bo2 be2 h hbo (by omega)
    · simp only [readStreams] at h
      split at h
      · simp at h
      · rename_i hle
        exact ih (bo ++ chunk) be bo2 be2 h (by omega) hbe

theorem readStreams_ok_concat (mo me : Nat) :
    ∀ (evs : List (Bool × List Char)) (bo be bo2 be2 : List Char),
      readStreams mo me evs bo be = .ok (bo2, be2) →
      bo2 = bo ++ chunksOf true evs ∧ be2 = be ++ chunksOf false evs := by
  intro evs
  induction evs with
  | nil =>
    intro bo be bo2 be2 h
    simp only [readStreams] at h
    injection h with h
    injection h with h1 h2
    subst h1; subst h2
    simp [chunksOf]
  | cons ev rest ih =>
    intro bo be bo2 be2 h
    obtain ⟨isOut, chunk⟩ := ev
    cases isOut
    · simp only [readStreams] at h
      split at h
      · simp at h
      · obtain ⟨h1, h2⟩ := ih bo (be ++ chunk) bo2 be2 h
        constructor
        · rw [h1]; simp [chunksOf]
        · rw [h2]; simp [chunksOf]
    · simp only [readStreams] at h
      split at h
      · simp at h
      · obtain ⟨h1, h2⟩ := ih (bo ++ chunk) be bo2 be2 h
        constructor
        · rw [h1]; simp [chunksOf]
        · rw [h2]; simp [chunksOf]

theorem readStreams_err_shape (mo me : Nat) :
    ∀ (evs : List (Bool × List Char)) (bo be : List Char) (cap : Nat),
      readStreams mo me evs bo be = .error cap → cap = mo ∨ cap = me := by
  intro evs
  induction evs with
  | nil =>
    intro bo be cap h
    simp only [readStreams] at h
    exact absurd h (by simp)
  | cons ev rest ih =>
    intro bo be cap h
    obtain ⟨isOut, chunk⟩ := ev
    cases isOut
    · simp only [readStreams] at h
      split at h
      · injection h with h; exact Or.inr h.symm
      · exact ih _ _ _ h
    · simp only [readStreams] at h
      split at h
      · injection h with h; exact Or.inl h.symm
      · exact ih _ _ _ h

theorem streamTotal_eq_length (isOut : Bool) (evs : List (Bool × List Char)) :
    streamTotal isOut evs = (chunksOf isOut evs).length := by
  unfold streamTotal chunksOf
  rw [List.length_flatten]
  congr 1
  simp

/-- C3: for every captured-process run, the stdout and stderr strings of the
returned value are within their caps, on the success path and on the timeout
path; and when the chunks of a stream exceed its cap, the child is killed and
the call fails with OutputLimitExceeded carrying one of the caps. -/
theorem syscommand_output_cap (mo me : Nat) (evs : List (Bool × List Char))
    (stat : Option ExitStatusM) (exp : Option Int) :
    (∀ out, (syscommand_timeout mo me evs stat exp).1 = .ok out →
        out.stdout.length ≤ mo ∧ out.stderr.length ≤ me)
    ∧ (∀ so se,
        (syscommand_timeout mo me evs stat exp).1
          = .error (.timeoutErr (some so) (some se)) →
        so.length ≤ mo ∧ se.length ≤ me)
    ∧ (mo < streamTotal true evs ∨ me < streamTotal false evs →
        ∃ cap,
          syscommand_timeout mo me evs stat exp
            = (.error (.outputLimitExceeded cap), true)
          ∧ (cap = mo ∨ cap = me)) := by
  refine ⟨?_, ?_, ?_⟩
  · intro out h
    cases hres : readStreams mo me evs [] [] with
    | error cap =>
      unfold syscommand_timeout at h
      rw [hres] at h
      simp at h
    | ok bufs =>
      obtain ⟨bo, be⟩ := bufs
      obtain ⟨hbo, hbe⟩ :=
        readStreams_ok_bounds mo me evs [] [] bo be hres (by simp) (by simp)
      cases stat with
      | none =>
        unfold syscommand_timeout at h
        rw [hres] at h
        simp at h
      | some es =>
        cases es with
        | exited code =>
          unfold syscommand_timeout at h
          rw [hres] at h
          simp only [] at h
          split at h
          · injection h with h
            subst h
            exact ⟨hbo, hbe⟩
          · simp at h
        | signaled sig =>
          unfold syscommand_timeout at h
          rw [hres] at h
          simp at h
        | otherStatus v =>
          unfold syscommand_timeout at h
          rw [hres] at h
          simp at h
        | undetermined =>
          unfold syscommand_timeout at h
          rw [hres] at h
          simp at h
  · intro so se h
    cases hres : readStreams mo me evs [] [] with
    | error cap =>
      unfold syscommand_timeout at h
      rw [hres] at h
      simp at h
    | ok bufs =>
      obtain ⟨bo, be⟩ := bufs
      obtain ⟨hbo, hbe⟩ :=
        readStreams_ok_bounds mo me evs [] [] bo be hres (by simp) (by simp)
      cases stat with
      | none =>
        unfold syscommand_timeout at h
        rw [hres] at h
        simp only [Except.error.injEq, SyscommandErrorM.timeoutErr.injEq,
          Option.some.injEq] at h
        obtain ⟨h1, h2⟩ := h
        subst h1; subst h2
        exact ⟨hbo, hbe⟩
      | some es =>
        cases es with
        | exited code =>
          unfold syscommand_timeout at h
          rw [hres] at h
          simp only [] at h
          split at h
          · simp at h
          · simp at h
        | signaled sig =>
          unfold syscommand_timeout at h
          rw [hres] at h
          simp at h
        | otherStatus v =>
          unfold syscommand_timeout at h
          rw [hres] at h
          simp at h
        | undetermined =>
          unfold syscommand_timeout at h
          rw [hres] at h
          simp at h
  · intro hbreach
    cases hres : readStreams mo me evs [] [] with
    | error cap =>
      refine ⟨cap, ?_, readStreams_err_shape mo me evs [] [] cap hres⟩
      unfold syscommand_timeout
      rw [hres]
    | ok bufs =>
      exfalso
      obtain ⟨bo, be⟩ := bufs
      obtain ⟨hbo, hbe⟩ :=
        readStreams_ok_bounds mo me evs [] [] bo be hres (by simp) (by simp)
      obtain ⟨h1, h2⟩ :=
        readStreams_ok_concat mo me evs [] [] bo be hres
      simp only [List.nil_append] at h1 h2
      rcases hbreach with hb | hb
      · rw [streamTotal_eq_length, ← h1] at hb
        omega
      · rw [streamTotal_eq_length, ← h2] at hb
        omega

theorem syscommand_output_cap_witness :
    (0 < streamTotal true [(true, ['a'])] ∨ 0 < streamTotal false [(true, ['a'])])
    ∧ ∃ cap,
        syscommand_timeout 0 0 [(true, ['a'])] none none
          = (.error (.outputLimitExceeded cap), true)
        ∧ (cap = 0 ∨ cap = 0) :=
  ⟨Or.inl (by decide),
   (syscommand_output_cap 0 0 [(true, ['a'])] none none).2.2 (Or.inl (by decide))⟩

/-! ### C7: markdown truncation -/

/-- C7 (amended): for input no longer than the cap, the truncating formatter
equals the non-truncated form; for longer input, the output contains the
TRUNCATED marker at least once (once exactly when the input itself avoids
the marker), and the retained head and tail are the first and last
`ceil(cap/2)` characters, together of length `cap` for even caps and
`cap + 1` for odd caps. -/
theorem md_preformatted_truncation_spec (s : List Char) (cap : Nat) :
    (s.length ≤ cap →
      md_preformatted_with_truncation s (some cap) = md_preformatted s)
    ∧ (cap < s.length →
        "TRUNCATED".toList <:+: md_preformatted_with_truncation s (some cap)
        ∧ ∃ hd tl,
            md_preformatted_with_truncation s (some cap)
              = "<pre>\n".toList ++ pushEscape hd
                  ++ "\n...\nTRUNCATED\n...\n".toList ++ pushEscape tl
                  ++ "\n</pre>".toList
            ∧ hd = s.take ((cap + 1) / 2)
            ∧ tl = s.drop (s.length - (cap + 1) / 2)
            ∧ hd.length + tl.length
                = (if cap % 2 = 0 then cap else cap + 1)) := by
  constructor
  · intro hle
    simp only [md_preformatted_with_truncation, md_preformatted]
    rw [if_neg]
    intro hcond
    omega
  · intro hlt
    have hcond : (cap + 1) / 2 ≤ s.length ∧ cap < s.length := by omega
    have hout :
        md_preformatted_with_truncation s (some cap)
          = "<pre>\n".toList ++ pushEscape (s.take ((cap + 1) / 2))
              ++ "\n...\nTRUNCATED\n...\n".toList
              ++ pushEscape (s.drop (s.length - (cap + 1) / 2))
              ++ "\n</pre>".toList := by
      simp only [md_preformatted_with_truncation]
      rw [if_pos hcond]
    constructor
    · rw [hout]
      refine ⟨"<pre>\n".toList ++ pushEscape (s.take ((cap + 1) / 2))
          ++ "\n...\n".toList,
        "\n...\n".toList
          ++ pushEscape (s.drop (s.length - (cap + 1) / 2))
          ++ "\n</pre>".toList, ?_⟩
      have hmark :
          "\n...\nTRUNCATED\n...\n".toList
            = "\n...\n".toList ++ "TRUNCATED".toList ++ "\n...\n".toList := by
        decide
      rw [hmark]
      simp [List.append_assoc]
    · refine ⟨s.take ((cap + 1) / 2), s.drop (s.length - (cap + 1) / 2),
        hout, rfl, rfl, ?_⟩
      have hlen :
          (s.take ((cap + 1) / 2)).length
            + (s.drop (s.length - (cap + 1) / 2)).length
            = 2 * ((cap + 1) / 2) := by
        rw [List.length_take, List.length_drop]
        omega
      rw [hlen]
      by_cases hpar : cap % 2 = 0
      · rw [if_pos hpar]
        omega
      · rw [if_neg hpar]
        omega

theorem md_preformatted_truncation_witness :
    (2 < ("abc".toList).length) ∧
    ("TRUNCATED".toList <:+: md_preformatted_with_truncation "abc".toList (some 2)
     ∧ ∃ hd tl,
         md_preformatted_with_truncation "abc".toList (some 2)
           = "<pre>\n".toList ++ pushEscape hd
               ++ "\n...\nTRUNCATED\n...\n".toList ++ pushEscape tl
               ++ "\n</pre>".toList
         ∧ hd = ("abc".toList).take ((2 + 1) / 2)
         ∧ tl = ("abc".toList).drop (("abc".toList).length - (2 + 1) / 2)
         ∧ hd.length + tl.length = (if 2 % 2 = 0 then 2 else 2 + 1)) :=
  ⟨by decide,
   (md_preformatted_truncation_spec "abc".toList 2).2 (by decide)⟩

/-- C7, counterexample to the claim as stated: for an input that itself
contains the marker, the truncated output contains TRUNCATED more than
once. -/
theorem md_preformatted_truncation_counterexample :
    ¬(countOccurrences "TRUNCATED".toList
        (md_preformatted_with_truncation "TRUNCATEDTRUNCATEDx".toList
          (some 18)) = 1)
    ∧ 18 < ("TRUNCATEDTRUNCATEDx".toList).length := by
  constructor
  · decide
  · decide

/-! ### C8: single_linefeed_to_space -/

theorem trimList_eq_rdrop (s : List Char) :
    trimList s = List.rdropWhile isRustWS (s.dropWhile isRustWS) := rfl

theorem trimList_head_not (s : List Char) (c : Char) (rest : List Char)
    (h : trimList s = c :: rest) : isRustWS c = false := by
  have hpre := List.rdropWhile_prefix isRustWS (s.dropWhile isRustWS)
  rw [← trimList_eq_rdrop, h] at hpre
  obtain ⟨t, ht⟩ := hpre
  have hd : s.dropWhile isRustWS = c :: (rest ++ t) := by
    rw [← ht]; simp
  have h2 := List.head_dropWhile_not isRustWS s (by rw [hd]; simp)
  simp only [hd, List.head_cons] at h2
  exact h2

theorem trimList_last_not (s : List Char) (c : Char)
    (hc : (trimList s).getLast? = some c) : isRustWS c = false := by
  have hne : trimList s ≠ [] := by
    intro hnil; rw [hnil] at hc; simp at hc
  have h1 := List.rdropWhile_last_not isRustWS (s.dropWhile isRustWS)
    (by rw [← trimList_eq_rdrop]; exact hne)
  rw [List.getLast?_eq_getLast _ hne] at hc
  injection hc with hc
  rw [← hc]
  simp only [Bool.not_eq_true] at h1
  exact h1

theorem trimList_eq_self (l : List Char) (hne : l ≠ [])
    (hhead : ∀ c, l.head? = some c → isRustWS c = false)
    (hlast : ∀ c, l.getLast? = some c → isRustWS c = false) : trimList l = l := by
  have hh : isRustWS (l.head hne) = false := hhead _ (List.head?_eq_head hne)
  have hl : isRustWS (l.getLast hne) = false :=
    hlast _ (List.getLast?_eq_getLast l hne)
  have hdrop : l.dropWhile isRustWS = l := by
    cases l with
    | nil => rfl
    | cons c t =>
      rw [List.dropWhile_cons_of_neg]
      simp only [List.head_cons] at hh
      simp [hh]
  rw [trimList_eq_rdrop, hdrop]
  rw [List.rdropWhile_eq_self_iff]
  intro hl2
  simp [hl]

theorem slfStep_length :
    ∀ (l : List Char) (p : Char), (slfStep p l).length = l.length := by
  intro l
  induction l with
  | nil => intro p; rfl
  | cons m tail ih =>
    intro p
    cases tail with
    | nil => rfl
    | cons n rest =>
      simp only [slfStep, List.length_cons]
      rw [ih m]
      simp

theorem slfStep_getLast? :
    ∀ (l : List Char) (p : Char), (slfStep p l).getLast? = l.getLast? := by
  intro l
  induction l with
  | nil => intro p; rfl
  | cons m tail ih =>
    intro p
    cases tail with
    | nil => rfl
    | cons n rest =>
      simp only [slfStep]
      cases hcons : slfStep m (n :: rest) with
      | nil =>
        have := slfStep_length (n :: rest) m
        rw [hcons] at this
        simp at this
      | cons hc htl =>
        rw [List.getLast?_cons_cons, ← hcons, ih m, List.getLast?_cons_cons]

theorem slfZip_append_last :
    ∀ (rest : List Char) (a m : Char),
      slfZip (a :: m :: rest) (m :: rest) rest ++ (m :: rest).getLast?.toList
        = slfStep a (m :: rest) := by
  intro rest
  induction rest with
  | nil =>
    intro a m
    rfl
  | cons n rs ih =>
    intro a m
    show slfTrans a m n :: (slfZip (m :: n :: rs) (n :: rs) rs
        ++ (m :: n :: rs).getLast?.toList) = slfStep a (m :: n :: rs)
    rw [List.getLast?_cons_cons, ih m n]
    rfl

theorem slf_small (s : List Char) (hlen : (trimList s).length ≤ 1) :
    single_linefeed_to_space s = trimList s := by
  simp only [single_linefeed_to_space]
  rw [if_neg]
  omega

theorem slf_eq_step (s : List Char) (a m : Char) (r : List Char)
    (ht : trimList s = a :: m :: r) :
    single_linefeed_to_space s = a :: slfStep a (m :: r) := by
  simp only [single_linefeed_to_space]
  rw [ht, if_pos (by simp)]
  show [a] ++ slfZip (a :: m :: r) (m :: r) r
      ++ (a :: m :: r).getLast?.toList = a :: slfStep a (m :: r)
  rw [List.getLast?_cons_cons, List.append_assoc]
  rw [slfZip_append_last r a m]
  rfl

theorem slfTrans_eq_lf (p m n : Char) :
    slfTrans p m n = '\n' ↔ (m = '\n' ∧ (p = '\n' ∨ n = '\n')) := by
  unfold slfTrans
  by_cases h1 : m = '\n' <;> by_cases h2 : p = '\n' <;> by_cases h3 : n = '\n' <;>
    simp [h1, h2, h3]

theorem noLone_mono (x y : Char) (l : List Char) (hxy : y = '\n' → x = '\n')
    (h : NoLone y l) : NoLone x l := by
  cases l with
  | nil => trivial
  | cons hd tl =>
    cases tl with
    | nil => trivial
    | cons n t =>
      obtain ⟨h1, h2⟩ := h
      refine ⟨?_, h2⟩
      rintro ⟨ha, hb, hc⟩
      exact h1 ⟨ha, fun hy => hb (hxy hy), hc⟩

theorem noLone_head_ne (x y : Char) (hd : Char) (tl : List Char)
    (hne : hd ≠ '\n') (h : NoLone y (hd :: tl)) : NoLone x (hd :: tl) := by
  cases tl with
  | nil => trivial
  | cons n t =>
    obtain ⟨_, h2⟩ := h
    refine ⟨?_, h2⟩
    rintro ⟨ha, _, _⟩
    exact hne ha

theorem noLone_slfStep :
    ∀ (l : List Char) (p : Char), NoLone p (slfStep p l) := by
  intro l
  induction l with
  | nil => intro p; trivial
  | cons m tail ih =>
    intro p
    cases tail with
    | nil => trivial
    | cons n rest =>
      show NoLone p (slfTrans p m n :: slfStep m (n :: rest))
      cases rest with
      | nil =>
        show NoLone p [slfTrans p m n, n]
        refine ⟨?_, trivial⟩
        rintro ⟨ha, hb, hc⟩
        rw [slfTrans_eq_lf] at ha
        obtain ⟨hm, hp | hn⟩ := ha
        · exact hb hp
        · exact hc hn
      | cons r rs =>
        show NoLone p (slfTrans p m n :: slfTrans m n r :: slfStep n (r :: rs))
        constructor
        · rintro ⟨ha, hb, hc⟩
          rw [slfTrans_eq_lf] at ha
          obtain ⟨hm, hp | hn⟩ := ha
          · exact hb hp
          · apply hc
            rw [slfTrans_eq_lf]
            exact ⟨hn, Or.inl hm⟩
        · have hstep : NoLone m (slfStep m (n :: r :: rs)) := ih m
          rw [show slfStep m (n :: r :: rs)
              = slfTrans m n r :: slfStep n (r :: rs) from rfl] at hstep
          by_cases hc : m = '\n' ∧ p ≠ '\n' ∧ n ≠ '\n'
          · have hm' : slfTrans p m n = ' ' := by
              unfold slfTrans; rw [if_pos hc]
            have hn' : slfTrans m n r = n := by
              unfold slfTrans
              rw [if_neg]
              rintro ⟨ha, _, _⟩
              exact hc.2.2 ha
            apply noLone_head_ne _ m
            · rw [hn']
              exact hc.2.2
            · exact hstep
          · have hm' : slfTrans p m n = m := by
              unfold slfTrans; rw [if_neg hc]
            rw [hm']
            exact hstep

theorem slfStep_fix :
    ∀ (l : List Char) (p : Char), NoLone p l → slfStep p l = l := by
  intro l
  induction l with
  | nil => intro p _; rfl
  | cons m tail ih =>
    intro p h
    cases tail with
    | nil => rfl
    | cons n rest =>
      obtain ⟨h1, h2⟩ := h
      show slfTrans p m n :: slfStep m (n :: rest) = m :: n :: rest
      rw [ih m h2]
      congr 1
      unfold slfTrans
      rw [if_neg h1]

theorem slf_idempotent (s : List Char) :
    single_linefeed_to_space (single_linefeed_to_space s)
      = single_linefeed_to_space s := by
  cases ht : trimList s with
  | nil =>
    have h1 : single_linefeed_to_space s = [] := by
      rw [slf_small s (by rw [ht]; simp), ht]
    have h0 : trimList ([] : List Char) = [] := rfl
    rw [h1, slf_small [] (by rw [h0]; simp), h0]
  | cons c1 tl =>
    cases tl with
    | nil =>
      have hc1 : isRustWS c1 = false := trimList_head_not s c1 [] ht
      have h1 : single_linefeed_to_space s = [c1] := by
        rw [slf_small s (by rw [ht]; simp), ht]
      rw [h1]
      have htr : trimList [c1] = [c1] := by
        apply trimList_eq_self [c1] (by simp)
        · intro c hc
          simp only [List.head?_cons, Option.some.injEq] at hc
          rw [← hc]; exact hc1
        · intro c hc
          simp only [List.getLast?_singleton, Option.some.injEq] at hc
          rw [← hc]; exact hc1
      rw [slf_small [c1] (by rw [htr]; simp), htr]
    | cons c2 r =>
      have hfs : single_linefeed_to_space s = c1 :: slfStep c1 (c2 :: r) :=
        slf_eq_step s c1 c2 r ht
      set L := slfStep c1 (c2 :: r) with hL
      have hLlen : L.length = (c2 :: r).length := slfStep_length (c2 :: r) c1
      have hLne : L ≠ [] := by
        intro hnil; rw [hnil] at hLlen; simp at hLlen
      have hhead : isRustWS c1 = false := trimList_head_not s c1 (c2 :: r) ht
      have hlast : ∀ c, (c1 :: L).getLast? = some c → isRustWS c = false := by
        intro c hc
        apply trimList_last_not s c
        rw [ht]
        have e1 : (c1 :: L).getLast? = L.getLast? := by
          cases hLc : L with
          | nil => exact absurd hLc hLne
          | cons x xs => exact List.getLast?_cons_cons
        rw [e1, hL, slfStep_getLast? (c2 :: r) c1] at hc
        rw [List.getLast?_cons_cons]
        exact hc
      have htrim : trimList (c1 :: L) = c1 :: L := by
        apply trimList_eq_self (c1 :: L) (by simp)
        · intro c hc
          simp only [List.head?_cons, Option.some.injEq] at hc
          rw [← hc]; exact hhead
        · exact hlast
      obtain ⟨d, L2, hLc⟩ : ∃ d L2, L = d :: L2 := by
        cases hx : L with
        | nil => exact absurd hx hLne
        | cons d L2 => exact ⟨d, L2, rfl⟩
      rw [hfs]
      rw [slf_eq_step (c1 :: L) c1 d L2 (by rw [htrim, hLc])]
      rw [← hLc]
      congr 1
      exact slfStep_fix L c1 (by rw [hL]; exact noLone_slfStep (c2 :: r) c1)

theorem slfStep_run_nl :
    ∀ (j : Nat) (v : List Char), 1 ≤ j →
      ∃ x, slfStep '\n' (List.replicate j '\n' ++ v)
          = List.replicate j '\n' ++ x
        ∧ x.length = v.length := by
  intro j
  induction j with
  | zero => intro v h; omega
  | succ j ih =>
    intro v _
    by_cases hj : 1 ≤ j
    · obtain ⟨j2, rfl⟩ : ∃ j2, j = j2 + 1 := ⟨j - 1, by omega⟩
      have hshape : List.replicate (j2 + 1 + 1) '\n' ++ v
          = '\n' :: ('\n' :: (List.replicate j2 '\n' ++ v)) := by
        simp [List.replicate_succ]
      rw [hshape]
      obtain ⟨x, hx, hxl⟩ := ih v hj
      refine ⟨x, ?_, hxl⟩
      show slfTrans '\n' '\n' '\n'
          :: slfStep '\n' ('\n' :: (List.replicate j2 '\n' ++ v))
          = List.replicate (j2 + 1 + 1) '\n' ++ x
      have h1 : slfTrans '\n' '\n' '\n' = '\n' := by decide
      have h2 : '\n' :: (List.replicate j2 '\n' ++ v)
          = List.replicate (j2 + 1) '\n' ++ v := by
        simp [List.replicate_succ]
      rw [h1, h2, hx]
      simp [List.replicate_succ]
    · have hj0 : j = 0 := by omega
      subst hj0
      cases v with
      | nil =>
        exact ⟨[], by simp [List.replicate_succ, slfStep], by simp⟩
      | cons w ws =>
        refine ⟨slfStep '\n' (w :: ws), ?_, slfStep_length (w :: ws) '\n'⟩
        have hshape : List.replicate 1 '\n' ++ (w :: ws)
            = '\n' :: w :: ws := by simp
        rw [hshape]
        show slfTrans '\n' '\n' w :: slfStep '\n' (w :: ws)
            = List.replicate 1 '\n' ++ slfStep '\n' (w :: ws)
        have h1 : slfTrans '\n' '\n' w = '\n' := by
          unfold slfTrans
          rw [if_neg]
          rintro ⟨_, hb, _⟩
          exact hb rfl
        rw [h1]
        simp

theorem slfStep_run :
    ∀ (u : List Char) (p : Char) (k : Nat) (v : List Char), 2 ≤ k →
      ∃ w x, slfStep p (u ++ List.replicate k '\n' ++ v)
          = w ++ List.replicate k '\n' ++ x
        ∧ w.length = u.length ∧ x.length = v.length := by
  intro u
  induction u with
  | nil =>
    intro p k v hk
    obtain ⟨k2, rfl⟩ : ∃ k2, k = k2 + 2 := ⟨k - 2, by omega⟩
    have hshape : ([] : List Char) ++ List.replicate (k2 + 2) '\n' ++ v
        = '\n' :: ('\n' :: (List.replicate k2 '\n' ++ v)) := by
      simp [List.replicate_succ]
    rw [hshape]
    obtain ⟨x, hx, hxl⟩ := slfStep_run_nl (k2 + 1) v (by omega)
    refine ⟨[], x, ?_, rfl, hxl⟩
    show slfTrans p '\n' '\n'
        :: slfStep '\n' ('\n' :: (List.replicate k2 '\n' ++ v))
        = [] ++ List.replicate (k2 + 2) '\n' ++ x
    have h1 : slfTrans p '\n' '\n' = '\n' := by
      unfold slfTrans
      rw [if_neg]
      rintro ⟨_, _, hcne⟩
      exact hcne rfl
    have h2 : '\n' :: (List.replicate k2 '\n' ++ v)
        = List.replicate (k2 + 1) '\n' ++ v := by
      simp [List.replicate_succ]
    rw [h1, h2, hx]
    simp [List.replicate_succ]
  | cons c u2 ih =>
    intro p k v hk
    cases htt : u2 ++ List.replicate k '\n' ++ v with
    | nil =>
      have := congrArg List.length htt
      simp at this
      omega
    | cons h2 t2 =>
      obtain ⟨w, x, hw, hwl, hxl⟩ := ih c k v hk
      rw [htt] at hw
      refine ⟨slfTrans p c h2 :: w, x, ?_, by simp [hwl], hxl⟩
      have hgoal : (c :: u2) ++ List.replicate k '\n' ++ v
          = c :: h2 :: t2 := by
        rw [← htt]
        simp
      rw [hgoal]
      show slfTrans p c h2 :: slfStep c (h2 :: t2)
          = (slfTrans p c h2 :: w) ++ List.replicate k '\n' ++ x
      rw [hw]
      simp

/-- C8: the single-linefeed conversion is idempotent after the first
application, and every run of two or more consecutive linefeeds in the
trimmed input is preserved unchanged, in place, in the output. -/
theorem single_linefeed_to_space_spec :
    (∀ s : List Char,
      single_linefeed_to_space (single_linefeed_to_space s)
        = single_linefeed_to_space s)
    ∧ (∀ (s u v : List Char) (k : Nat), 2 ≤ k →
        trimList s = u ++ List.replicate k '\n' ++ v →
        ∃ u2 v2,
          single_linefeed_to_space s = u2 ++ List.replicate k '\n' ++ v2
          ∧ u2.length = u.length ∧ v2.length = v.length) := by
  refine ⟨slf_idempotent, ?_⟩
  intro s u v k hk ht
  cases u with
  | nil =>
    exfalso
    obtain ⟨k2, rfl⟩ : ∃ k2, k = k2 + 1 := ⟨k - 1, by omega⟩
    have hsh : ([] : List Char) ++ List.replicate (k2 + 1) '\n' ++ v
        = '\n' :: (List.replicate k2 '\n' ++ v) := by
      simp [List.replicate_succ]
    rw [hsh] at ht
    have hws := trimList_head_not s '\n' _ ht
    exact absurd hws (by decide)
  | cons a u2 =>
    have hsh : (a :: u2) ++ List.replicate k '\n' ++ v
        = a :: (u2 ++ List.replicate k '\n' ++ v) := by simp
    rw [hsh] at ht
    cases htt : u2 ++ List.replicate k '\n' ++ v with
    | nil =>
      have := congrArg List.length htt
      simp at this
      omega
    | cons m r =>
      rw [htt] at ht
      have hfs := slf_eq_step s a m r ht
      obtain ⟨w, x, hw, hwl, hxl⟩ := slfStep_run u2 a k v hk
      rw [htt] at hw
      refine ⟨a :: w, x, ?_, by simp [hwl], hxl⟩
      rw [hfs, hw]
      simp

theorem single_linefeed_to_space_witness :
    2 ≤ 2 ∧
    trimList ['a', '\n', '\n', 'b']
      = ['a'] ++ List.replicate 2 '\n' ++ ['b'] ∧
    ∃ u2 v2,
      single_linefeed_to_space ['a', '\n', '\n', 'b']
        = u2 ++ List.replicate 2 '\n' ++ v2
      ∧ u2.length = (['a'] : List Char).length
      ∧ v2.length = (['b'] : List Char).length :=
  ⟨le_refl 2, by decide,
   single_linefeed_to_space_spec.2 ['a', '\n', '\n', 'b'] ['a'] ['b'] 2
     (le_refl 2) (by decide)⟩

/-! ### C1: atomic dispatch -/

theorem pickOldest_mem :
    ∀ (l : List Submission) (x : Submission), pickOldest l = some x → x ∈ l := by
  intro l
  induction l with
  | nil => intro x h; simp [pickOldest] at h
  | cons s rest ih =>
    intro x h
    cases hres : pickOldest rest with
    | none =>
      simp only [pickOldest, hres] at h
      injection h with h
      exact h ▸ List.mem_cons_self s rest
    | some t =>
      simp only [pickOldest, hres] at h
      split at h
      · injection h with h
        exact List.mem_cons_of_mem s (ih x (by rw [hres, h]))
      · injection h with h
        exact h ▸ List.mem_cons_self s rest

theorem pickOldest_none :
    ∀ (l : List Submission), pickOldest l = none → l = [] := by
  intro l
  cases l with
  | nil => intro _; rfl
  | cons s rest =>
    intro h
    cases hres : pickOldest rest with
    | none =>
      simp only [pickOldest, hres] at h
      simp at h
    | some t =>
      simp only [pickOldest, hres] at h
      split at h <;> simp at h

theorem pickOldest_min :
    ∀ (l : List Submission) (x : Submission), pickOldest l = some x →
      ∀ y ∈ l, x.dateSubmitted ≤ y.dateSubmitted := by
  intro l
  induction l with
  | nil => intro x h; simp [pickOldest] at h
  | cons s rest ih =>
    intro x h y hy
    cases hres : pickOldest rest with
    | none =>
      simp only [pickOldest, hres] at h
      injection h with h
      have hrest : rest = [] := pickOldest_none rest hres
      subst hrest
      simp at hy
      rw [← h, hy]
    | some t =>
      simp only [pickOldest, hres] at h
      rcases List.mem_cons.mp hy with hys | hyr
      · split at h
        · injection h with h
          rename_i hlt
          subst h; subst hys
          omega
        · injection h with h
          subst h; subst hys
          omega
      · split at h
        · injection h with h
          subst h
          exact ih _ hres y hyr
        · injection h with h
          rename_i hlt
          subst h
          have := ih t hres y hyr
          omega

theorem eligible_iff (db : List Submission) (x : Submission) :
    eligible db x = true ↔
      isQueued x = true ∧
        ∀ t ∈ db, isInFlight t = true → t.githubRepo ≠ x.githubRepo := by
  unfold eligible
  rw [Bool.and_eq_true, Bool.not_eq_true']
  constructor
  · rintro ⟨hq, hn⟩
    refine ⟨hq, ?_⟩
    intro t htm hin hrepo
    have : db.any (fun t => isInFlight t && t.githubRepo == x.githubRepo) = true :=
      List.any_eq_true.mpr
        ⟨t, htm, by rw [Bool.and_eq_true]; exact ⟨hin, by simp [hrepo]⟩⟩
    rw [this] at hn
    simp at hn
  · rintro ⟨hq, hn⟩
    refine ⟨hq, ?_⟩
    cases hany : db.any (fun t => isInFlight t && t.githubRepo == x.githubRepo) with
    | false => rfl
    | true =>
      obtain ⟨t, htm, ht⟩ := List.any_eq_true.mp hany
      rw [Bool.and_eq_true] at ht
      exact absurd (by simpa using ht.2) (hn t htm ht.1)

theorem try_assign_none_eq (db : List Submission) (rid : Nat)
    (db2 : List Submission)
    (h : try_assign_submission db rid = (none, db2)) : db2 = db := by
  unfold try_assign_submission at h
  cases hp : pickOldest (db.filter (eligible db)) with
  | none =>
    rw [hp] at h
    injection h with _ h
    exact h.symm
  | some c =>
    rw [hp] at h
    simp at h

theorem try_assign_some (db : List Submission) (rid : Nat) (s : Submission)
    (db2 : List Submission)
    (h : try_assign_submission db rid = (some s, db2)) :
    ∃ c, pickOldest (db.filter (eligible db)) = some c
      ∧ s = { c with assignedRunner := some rid }
      ∧ db2 = db.map (fun t => if t.id = c.id then s else t) := by
  unfold try_assign_submission at h
  cases hp : pickOldest (db.filter (eligible db)) with
  | none => rw [hp] at h; simp at h
  | some c =>
    rw [hp] at h
    simp only [Prod.mk.injEq, Option.some.injEq] at h
    exact ⟨c, rfl, h.1.symm, by rw [← h.2, h.1]⟩

theorem try_assign_ids (db : List Submission) (rid : Nat) (s : Submission)
    (db2 : List Submission)
    (h : try_assign_submission db rid = (some s, db2)) :
    db2.map (fun t => t.id) = db.map (fun t => t.id) := by
  obtain ⟨c, _, hs, hdb2⟩ := try_assign_some db rid s db2 h
  rw [hdb2, List.map_map]
  apply List.map_congr_left
  intro t _
  show (if t.id = c.id then s else t).id = t.id
  split
  · rename_i hteq
    rw [hs]
    exact hteq.symm
  · rfl

theorem eligible_shrink (db : List Submission) (rid : Nat) (s : Submission)
    (db2 : List Submission)
    (hid : (db.map (fun t => t.id)).Nodup)
    (h : try_assign_submission db rid = (some s, db2)) :
    ∀ x ∈ db2, eligible db2 x = true → x ∈ db ∧ eligible db x = true := by
  obtain ⟨c, hp, hs, hdb2⟩ := try_assign_some db rid s db2 h
  have hcmem : c ∈ db.filter (eligible db) := pickOldest_mem _ c hp
  rw [List.mem_filter] at hcmem
  obtain ⟨hcdb, hcel⟩ := hcmem
  intro x hx hxe
  rw [hdb2] at hx
  obtain ⟨y, hy, hyx⟩ := List.mem_map.mp hx
  rw [eligible_iff] at hxe
  obtain ⟨hxq, hxn⟩ := hxe
  have hxy : x = y := by
    by_cases hyc : y.id = c.id
    · exfalso
      rw [if_pos hyc] at hyx
      rw [← hyx, hs] at hxq
      simp [isQueued] at hxq
    · rw [if_neg hyc] at hyx
      exact hyx.symm
  subst hxy
  refine ⟨hy, ?_⟩
  rw [eligible_iff]
  refine ⟨hxq, ?_⟩
  intro t htdb hin hrepo
  by_cases htc : t.id = c.id
  · have htceq : t = c := by
      have := List.inj_on_of_nodup_map hid htdb hcdb
      exact this htc
    subst htceq
    rw [eligible_iff] at hcel
    obtain ⟨hcq, _⟩ := hcel
    simp [isQueued] at hcq
    simp [isInFlight, hcq.2] at hin
  · have htm2 : t ∈ db2 := by
      rw [hdb2]
      refine List.mem_map.mpr ⟨t, htdb, ?_⟩
      rw [if_neg htc]
    exact hxn t htm2 hin hrepo

theorem try_assign_seq_lb :
    ∀ (rids : List Nat) (db : List Submission) (d : Nat),
      (db.map (fun t => t.id)).Nodup →
      (∀ x ∈ db, eligible db x = true → d ≤ x.dateSubmitted) →
      ∀ y ∈ (try_assign_seq rids db).1, d ≤ y.dateSubmitted := by
  intro rids
  induction rids with
  | nil => intro db d _ _ y hy; simp [try_assign_seq] at hy
  | cons r rest ih =>
    intro db d hid hlb y hy
    simp only [try_assign_seq] at hy
    rcases hta : try_assign_submission db r with ⟨os, db2⟩
    cases os with
    | none =>
      rw [hta] at hy
      rw [try_assign_none_eq db r db2 hta] at hy
      exact ih db d hid hlb y hy
    | some s =>
      rw [hta] at hy
      rcases List.mem_cons.mp hy with hys | hyr
      · obtain ⟨c, hp, hs, _⟩ := try_assign_some db r s db2 hta
        have hcmem := pickOldest_mem _ c hp
        rw [List.mem_filter] at hcmem
        subst hys
        rw [hs]
        exact hlb c hcmem.1 hcmem.2
      · have hid2 : (db2.map (fun t => t.id)).Nodup := by
          rw [try_assign_ids db r s db2 hta]
          exact hid
        refine ih db2 d hid2 ?_ y hyr
        intro x hx hxe
        obtain ⟨hxdb, hxel⟩ := eligible_shrink db r s db2 hid hta x hx hxe
        exact hlb x hxdb hxel

theorem try_assign_seq_chain :
    ∀ (rids : List Nat) (db : List Submission),
      (db.map (fun t => t.id)).Nodup →
      List.Chain' (fun a b => a.dateSubmitted ≤ b.dateSubmitted)
        (try_assign_seq rids db).1 := by
  intro rids
  induction rids with
  | nil => intro db _; simp [try_assign_seq]
  | cons r rest ih =>
    intro db hid
    simp only [try_assign_seq]
    rcases hta : try_assign_submission db r with ⟨os, db2⟩
    cases os with
    | none =>
      rw [try_assign_none_eq db r db2 hta]
      exact ih db hid
    | some s =>
      have hid2 : (db2.map (fun t => t.id)).Nodup := by
        rw [try_assign_ids db r s db2 hta]
        exact hid
      rw [List.chain'_cons']
      refine ⟨?_, ih db2 hid2⟩
      intro b hb
      have hbm : b ∈ (try_assign_seq rest db2).1 :=
        List.mem_of_mem_head? hb
      obtain ⟨c, hp, hs, _⟩ := try_assign_some db r s db2 hta
      have hmin := pickOldest_min _ c hp
      rw [hs]
      show c.dateSubmitted ≤ b.dateSubmitted
      refine try_assign_seq_lb rest db2 c.dateSubmitted hid2 ?_ b hbm
      intro x hx hxe
      obtain ⟨hxdb, hxel⟩ := eligible_shrink db r s db2 hid hta x hx hxe
      exact hmin x (List.mem_filter.mpr ⟨hxdb, hxel⟩)

/-- C1: the dispatch query assigns the oldest eligible queued submission
(queued, and with no in-flight submission of the same repository), sets its
assigned runner and returns the updated row, returning none and leaving the
table unchanged when nothing qualifies; and over any sequence of dispatch
calls on a fixed queue the returned submissions have non-decreasing
submission dates. -/
theorem try_assign_submission_spec (db : List Submission) (rid : Nat)
    (rids : List Nat) (hid : (db.map (fun t => t.id)).Nodup) :
    ((∀ x ∈ db, eligible db x = false) →
      try_assign_submission db rid = (none, db))
    ∧ (∀ s db2, try_assign_submission db rid = (some s, db2) →
        ∃ c, c ∈ db ∧ eligible db c = true
          ∧ (∀ y ∈ db, eligible db y = true →
              c.dateSubmitted ≤ y.dateSubmitted)
          ∧ s = { c with assignedRunner := some rid }
          ∧ db2 = db.map (fun t => if t.id = c.id then s else t))
    ∧ List.Chain' (fun a b => a.dateSubmitted ≤ b.dateSubmitted)
        (try_assign_seq rids db).1 := by
  refine ⟨?_, ?_, try_assign_seq_chain rids db hid⟩
  · intro hall
    have hfil : db.filter (eligible db) = [] := by
      rw [List.filter_eq_nil_iff]
      intro x hx
      rw [hall x hx]
      simp
    unfold try_assign_submission
    rw [hfil]
    rfl
  · intro s db2 h
    obtain ⟨c, hp, hs, hdb2⟩ := try_assign_some db rid s db2 h
    have hcmem := pickOldest_mem _ c hp
    rw [List.mem_filter] at hcmem
    refine ⟨c, hcmem.1, hcmem.2, ?_, hs, hdb2⟩
    intro y hy hye
    exact pickOldest_min _ c hp y (List.mem_filter.mpr ⟨hy, hye⟩)

theorem try_assign_submission_spec_witness :
    ((∀ x ∈ [Submission.mk 1 10 none false "r"],
        eligible [Submission.mk 1 10 none false "r"] x = false) →
      try_assign_submission [Submission.mk 1 10 none false "r"] 0
        = (none, [Submission.mk 1 10 none false "r"]))
    ∧ (∀ s db2,
        try_assign_submission [Submission.mk 1 10 none false "r"] 0
          = (some s, db2) →
        ∃ c, c ∈ [Submission.mk 1 10 none false "r"]
          ∧ eligible [Submission.mk 1 10 none false "r"] c = true
          ∧ (∀ y ∈ [Submission.mk 1 10 none false "r"],
              eligible [Submission.mk 1 10 none false "r"] y = true →
              c.dateSubmitted ≤ y.dateSubmitted)
          ∧ s = { c with assignedRunner := some 0 }
          ∧ db2 = [Submission.mk 1 10 none false "r"].map
              (fun t => if t.id = c.id then s else t))
    ∧ List.Chain' (fun a b => a.dateSubmitted ≤ b.dateSubmitted)
        (try_assign_seq [0, 1] [Submission.mk 1 10 none false "r"]).1 :=
  try_assign_submission_spec [Submission.mk 1 10 none false "r"] 0 [0, 1]
    (by decide)

/-! ### C9: ingress grading-tag extraction -/

theorem lexLt_irrefl : ∀ (l : List Char), lexLt l l = false := by
  intro l
  induction l with
  | nil => rfl
  | cons c cs ih =>
    simp only [lexLt]
    rw [if_neg (lt_irrefl c), if_neg (lt_irrefl c)]
    exact ih

theorem lexLt_ne (a b : List Char) (h : lexLt a b = true) : a ≠ b := by
  intro he
  subst he
  rw [lexLt_irrefl] at h
  exact absurd h (by simp)

theorem lexLt_total :
    ∀ (a b : List Char), lexLt a b = false → a ≠ b → lexLt b a = true := by
  intro a
  induction a with
  | nil =>
    intro b h hne
    cases b with
    | nil => exact absurd rfl hne
    | cons c cs => simp [lexLt] at h
  | cons x as ih =>
    intro b h hne
    cases b with
    | nil => rfl
    | cons y bs =>
      simp only [lexLt] at h ⊢
      by_cases hxy : x < y
      · rw [if_pos hxy] at h
        exact absurd h (by simp)
      · rw [if_neg hxy] at h
        by_cases hyx : y < x
        · rw [if_pos hyx]
        · rw [if_neg hyx] at h
          rw [if_neg hyx, if_neg hxy]
          have hxeq : x = y := le_antisymm (le_of_not_lt hyx) (le_of_not_lt hxy)
          subst hxeq
          apply ih bs h
          intro habs
          exact hne (by rw [habs])

theorem lexLt_trans :
    ∀ (a b c : List Char), lexLt a b = true → lexLt b c = true →
      lexLt a c = true := by
  intro a
  induction a with
  | nil =>
    intro b c hab hbc
    cases b with
    | nil => simp [lexLt] at hab
    | cons y bs =>
      cases c with
      | nil => simp [lexLt] at hbc
      | cons z cs => rfl
  | cons x as ih =>
    intro b c hab hbc
    cases b with
    | nil => simp [lexLt] at hab
    | cons y bs =>
      cases c with
      | nil => simp [lexLt] at hbc
      | cons z cs =>
        simp only [lexLt] at hab hbc ⊢
        by_cases hxy : x < y
        · by_cases hyz : y < z
          · rw [if_pos (lt_trans hxy hyz)]
          · rw [if_neg hyz] at hbc
            by_cases hzy : z < y
            · rw [if_pos hzy] at hbc
              exact absurd hbc (by simp)
            · have : y = z := le_antisymm (le_of_not_lt hzy) (le_of_not_lt hyz)
              subst this
              rw [if_pos hxy]
        · rw [if_neg hxy] at hab
          by_cases hyx : y < x
          · rw [if_pos hyx] at hab
            exact absurd hab (by simp)
          · have hxeq : x = y := le_antisymm (le_of_not_lt hyx) (le_of_not_lt hxy)
            rw [if_neg hyx] at hab
            subst hxeq
            by_cases hxz : x < z
            · rw [if_pos hxz]
            · rw [if_neg hxz] at hbc ⊢
              by_cases hzx : z < x
              · rw [if_pos hzx] at hbc
                exact absurd hbc (by simp)
              · rw [if_neg hzx] at hbc ⊢
                exact ih bs cs hab hbc

theorem mem_insertSortedLex :
    ∀ (l : List (List Char)) (x y : List Char),
      y ∈ insertSortedLex x l ↔ y = x ∨ y ∈ l := by
  intro l
  induction l with
  | nil =>
    intro x y
    simp [insertSortedLex]
  | cons h t ih =>
    intro x y
    simp only [insertSortedLex]
    split
    · simp
    · split
      · rename_i hxe
        subst hxe
        simp only [List.mem_cons]
        tauto
      · simp only [List.mem_cons, ih]
        tauto

theorem pairwise_insertSortedLex :
    ∀ (l : List (List Char)) (x : List Char),
      l.Pairwise (fun a b => lexLt a b = true) →
      (insertSortedLex x l).Pairwise (fun a b => lexLt a b = true) := by
  intro l
  induction l with
  | nil =>
    intro x _
    simp [insertSortedLex]
  | cons h t ih =>
    intro x hp
    rw [List.pairwise_cons] at hp
    obtain ⟨hh, ht⟩ := hp
    simp only [insertSortedLex]
    split
    · rename_i hlt
      rw [List.pairwise_cons]
      refine ⟨?_, List.pairwise_cons.mpr ⟨hh, ht⟩⟩
      intro z hz
      rcases List.mem_cons.mp hz with hzh | hzt
      · rw [hzh]
        exact hlt
      · exact lexLt_trans x h z hlt (hh z hzt)
    · split
      · exact List.pairwise_cons.mpr ⟨hh, ht⟩
      · rename_i hnlt hne
        rw [List.pairwise_cons]
        constructor
        · intro z hz
          rcases (mem_insertSortedLex t x z).mp hz with hzx | hzt
          · rw [hzx]
            apply lexLt_total x h
            · cases hlt : lexLt x h with
              | false => rfl
              | true => exact absurd hlt hnlt
            · intro habs
              exact hne habs
          · exact hh z hzt
        · exact ih x ht

theorem mem_btreeSetOfList :
    ∀ (l : List (List Char)) (acc : List (List Char)) (x : List Char),
      x ∈ l.foldl (fun acc y => insertSortedLex y acc) acc ↔
        x ∈ acc ∨ x ∈ l := by
  intro l
  induction l with
  | nil => intro acc x; simp
  | cons h t ih =>
    intro acc x
    simp only [List.foldl_cons, ih, mem_insertSortedLex, List.mem_cons]
    tauto

theorem pairwise_btreeSetOfList :
    ∀ (l : List (List Char)) (acc : List (List Char)),
      acc.Pairwise (fun a b => lexLt a b = true) →
      (l.foldl (fun acc y => insertSortedLex y acc) acc).Pairwise
        (fun a b => lexLt a b = true) := by
  intro l
  induction l with
  | nil => intro acc h; exact h
  | cons h t ih =>
    intro acc hacc
    exact ih (insertSortedLex h acc) (pairwise_insertSortedLex acc h hacc)

theorem nodup_btreeSetOfList (l : List (List Char)) :
    (btreeSetOfList l).Nodup := by
  have hp := pairwise_btreeSetOfList l [] (by simp)
  exact hp.imp (fun hab => lexLt_ne _ _ hab)

/-- C9 (amended): the ingress splits the push-event message on the space
character, keeps the tokens starting with a marker character with the marker
removed, deduplicates through an ordered set, and inserts a row with status
NotStarted (0), not finished, and the tags joined with semicolons. -/
theorem extract_grading_tags_spec (message : List Char) :
    (∀ tag, tag ∈ extract_grading_tags message ↔
      ∃ tok ∈ message.splitOn ' ',
        ∃ c rest, tok = c :: rest ∧ (c = '#' ∨ c = '%') ∧ tag = rest)
    ∧ (extract_grading_tags message).Nodup
    ∧ (∀ (tags : List (List Char)) (user org repo commit : String) (now : Nat),
        (register_github_submission tags user org repo commit now).execStatusCode
            = notStartedCode
        ∧ (register_github_submission tags user org repo commit now).execFinished
            = false
        ∧ (register_github_submission tags user org repo commit now).gradingTags
            = List.intercalate [';'] tags) := by
  refine ⟨?_, nodup_btreeSetOfList _, ?_⟩
  · intro tag
    unfold extract_grading_tags btreeSetOfList
    rw [mem_btreeSetOfList]
    simp only [List.mem_filterMap, List.not_mem_nil, false_or]
    constructor
    · rintro ⟨tok, htok, hf⟩
      refine ⟨tok, htok, ?_⟩
      cases tok with
      | nil => simp [tagOfToken] at hf
      | cons c rest =>
        simp only [tagOfToken] at hf
        split at hf
        · injection hf with hf
          exact ⟨c, rest, rfl, by assumption, hf.symm⟩
        · simp at hf
    · rintro ⟨tok, htok, c, rest, htc, hc, htag⟩
      refine ⟨tok, htok, ?_⟩
      subst htc
      simp only [tagOfToken]
      rw [if_pos hc, htag]
  · intro tags user org repo commit now
    exact ⟨rfl, rfl, rfl⟩

/-- C9, counterexample to the claim as stated: the message is split on the
space character only and the marker is stripped, so a tab-separated pair of
tags is treated as one token, unlike whitespace tokenisation. -/
theorem extract_grading_tags_counterexample :
    extract_grading_tags ['#', 'a', '\t', '#', 'b']
      ≠ specExtractGradingTags ['#', 'a', '\t', '#', 'b']
    ∧ (extract_grading_tags ['#', 'a', '\t', '#', 'b']).length = 1
    ∧ (specExtractGradingTags ['#', 'a', '\t', '#', 'b']).length = 2 :=
  ⟨by decide, by decide, by decide⟩

/-! ### C5: the GenASMAndRun run step -/

/-- C5: the final run step of a GenASMAndRun test runs run_cmd and succeeds
exactly when the exit code equals run_code and the treated stdout and stderr
equal the treated run_stdout and run_stderr; the stdin handed to the run
step, however, is the generation-stage stdin field, gated by
run_ignore_stdin — the dedicated run_stdin field is never used. -/
theorem genasm_run_step_spec (conf : TestkindBaseGenASMAndRunM)
    (testsDir : String) (asmContents : List Char) (testTimeout : Nat)
    (containerName : String) (output : SyscommandOutputM)
    (h1 : conf.runIgnoreStdout = false) (h2 : conf.runIgnoreStderr = false) :
    (mkGradeASMArgs conf testsDir asmContents testTimeout).runCmd = conf.runCmd
    ∧ gradeRunCommand containerName
        (mkGradeASMArgs conf testsDir asmContents testTimeout)
        = ["podman", "exec", "-w", "/tmp/grading"]
          ++ (if conf.runIgnoreStdin then [] else ["-i"])
          ++ [containerName] ++ conf.runCmd
    ∧ (mkGradeASMArgs conf testsDir asmContents testTimeout).stdin
        = (if conf.runIgnoreStdin then none else some conf.stdin)
    ∧ (gradeRunFailed (mkGradeASMArgs conf testsDir asmContents testTimeout)
          output = false ↔
        (output.code = conf.runCode
         ∧ treat_output output.stdout conf.runTrimStdout
               conf.runStripWhitespaceStdout
             = treat_output conf.runStdout conf.runTrimStdout
                 conf.runStripWhitespaceStdout
         ∧ treat_output output.stderr conf.runTrimStderr
               conf.runStripWhitespaceStderr
             = treat_output conf.runStderr conf.runTrimStderr
                 conf.runStripWhitespaceStderr))
    ∧ (mkGradeASMArgs bugConf "" [] 1).stdin = some bugConf.stdin
    ∧ (mkGradeASMArgs bugConf "" [] 1).stdin ≠ some bugConf.runStdin := by
  refine ⟨rfl, ?_, rfl, ?_, by decide, by decide⟩
  · unfold gradeRunCommand mkGradeASMArgs
    by_cases hig : conf.runIgnoreStdin
    · simp [hig]
    · simp [hig]
  · by_cases hc : output.code = conf.runCode <;>
      by_cases ho : treat_output output.stdout conf.runTrimStdout
          conf.runStripWhitespaceStdout
        = treat_output conf.runStdout conf.runTrimStdout
            conf.runStripWhitespaceStdout <;>
      by_cases he : treat_output output.stderr conf.runTrimStderr
          conf.runStripWhitespaceStderr
        = treat_output conf.runStderr conf.runTrimStderr
            conf.runStripWhitespaceStderr <;>
      simp [gradeRunFailed, gradeRunCodeStatus, gradeRunStdoutStatus,
        gradeRunStderrStatus, mkGradeASMArgs, h1, h2, hc, ho, he]

theorem genasm_run_step_spec_witness :
    (bugConf.runIgnoreStdout = false ∧ bugConf.runIgnoreStderr = false) ∧
    ((mkGradeASMArgs bugConf "" [] 1).runCmd = bugConf.runCmd
     ∧ (mkGradeASMArgs bugConf "" [] 1).stdin
         = (if bugConf.runIgnoreStdin then none else some bugConf.stdin)
     ∧ (mkGradeASMArgs bugConf "" [] 1).stdin ≠ some bugConf.runStdin) :=
  ⟨⟨rfl, rfl⟩,
   (genasm_run_step_spec bugConf "" [] 1 "box"
      (SyscommandOutputM.mk 0 ['o'] []) rfl rfl).1,
   (genasm_run_step_spec bugConf "" [] 1 "box"
      (SyscommandOutputM.mk 0 ['o'] []) rfl rfl).2.2.1,
   (genasm_run_step_spec bugConf "" [] 1 "box"
      (SyscommandOutputM.mk 0 ['o'] []) rfl rfl).2.2.2.2.2⟩

/-! ### C6: deadline and failure cause -/

/-- C6: entering a runner step at or past the deadline sets the
total-timeout failure cause and the runner reports finished; and the worker
loop never executes another test from a state with a failure cause set. -/
theorem run_next_deadline_spec :
    (∀ (w : StepWorld) (st : TestRunnerHandleM),
      st.cleanedUp = false → st.deadlineTime ≤ w.now →
        runNext w st
          = .ok ({ st with failureCause := some (.totalTimeout w.now) }, none)
        ∧ TestRunnerHandleM.isFinished
            { st with failureCause := some (.totalTimeout w.now) } = true)
    ∧ (∀ (ws : List StepWorld) (st : TestRunnerHandleM),
        st.failureCause.isSome → driverLoop ws st = (st, [])) := by
  constructor
  · intro w st hclean hdl
    constructor
    · unfold runNext
      rw [if_neg (by simp [hclean]), if_pos hdl]
    · unfold TestRunnerHandleM.isFinished
      simp
  · intro ws st hfc
    cases ws with
    | nil => rfl
    | cons w ws2 =>
      unfold driverLoop
      rw [if_pos]
      unfold TestRunnerHandleM.isFinished
      simp [hfc]

theorem run_next_deadline_spec_witness :
    (sampleState.cleanedUp = false
      ∧ sampleState.deadlineTime ≤ sampleWorld.now
      ∧ ({ sampleState with
            failureCause := some (.interrupted) } :
          TestRunnerHandleM).failureCause.isSome = true) ∧
    (runNext sampleWorld sampleState
        = .ok ({ sampleState with
            failureCause := some (.totalTimeout sampleWorld.now) }, none)
     ∧ TestRunnerHandleM.isFinished
         { sampleState with
            failureCause := some (.totalTimeout sampleWorld.now) } = true) ∧
    driverLoop [sampleWorld]
        { sampleState with failureCause := some (.interrupted) }
      = ({ sampleState with failureCause := some (.interrupted) }, []) :=
  ⟨⟨rfl, by decide, rfl⟩,
   run_next_deadline_spec.1 sampleWorld sampleState rfl (by decide),
   run_next_deadline_spec.2 [sampleWorld]
     { sampleState with failureCause := some (.interrupted) } rfl⟩

/-! ### C4: tag deduplication in the runner constructor -/

theorem collectTagStep_pos (t : String) (d : String → List String)
    (its : List TagIterM) (tag : TagM) (h : d tag.name = []) :
    collectTagStep t (d, its) tag
      = (fun m => if m = tag.name then [t] else d m,
         its ++ [TagIterM.new tag]) := by
  unfold collectTagStep
  rw [if_pos h]

theorem collectTagStep_neg (t : String) (d : String → List String)
    (its : List TagIterM) (tag : TagM) (h : ¬ d tag.name = []) :
    collectTagStep t (d, its) tag
      = (fun m => if m = tag.name then d m ++ [t] else d m, its) := by
  unfold collectTagStep
  rw [if_neg h]

theorem collect_fold_derived (t : String) :
    ∀ (G : List TagM) (d : String → List String) (its : List TagIterM) (n : String),
      (G.foldl (collectTagStep t) (d, its)).1 n
      = d n ++ ((G.filter (fun tag => tag.name == n)).map (fun _ => t)) := by
  intro G
  induction G with
  | nil => intro d its n; simp
  | cons tag G2 ih =>
    intro d its n
    simp only [List.foldl_cons]
    by_cases habs : d tag.name = []
    · rw [collectTagStep_pos t d its tag habs, ih]
      by_cases hn : n = tag.name
      · subst hn
        rw [if_pos rfl, List.filter_cons, if_pos (by simp), habs]
        simp
      · rw [if_neg hn, List.filter_cons, if_neg (by simp; exact fun h => hn h.symm)]
    · rw [collectTagStep_neg t d its tag habs, ih]
      by_cases hn : n = tag.name
      · subst hn
        rw [if_pos rfl, List.filter_cons, if_pos (by simp)]
        simp
      · rw [if_neg hn, List.filter_cons, if_neg (by simp; exact fun h => hn h.symm)]

theorem collect_fold_inv (t : String) :
    ∀ (G : List TagM) (d : String → List String) (its : List TagIterM),
      (∀ n, its.countP (fun it => it.tagName == n) = if d n = [] then 0 else 1) →
      ∀ n,
        (G.foldl (collectTagStep t) (d, its)).2.countP
            (fun it => it.tagName == n)
        = if (G.foldl (collectTagStep t) (d, its)).1 n = [] then 0 else 1 := by
  intro G
  induction G with
  | nil => intro d its hinv n; exact hinv n
  | cons tag G2 ih =>
    intro d its hinv n
    simp only [List.foldl_cons]
    by_cases habs : d tag.name = []
    · simp only [collectTagStep_pos t d its tag habs]
      apply ih
      intro m
      rw [List.countP_append]
      have hnew : (TagIterM.new tag).tagName = tag.name := rfl
      by_cases hm : m = tag.name
      · subst hm
        rw [if_pos rfl, if_neg (by simp), hinv tag.name, if_pos habs]
        simp [List.countP_cons, hnew]
      · have hm2 : ¬ tag.name = m := fun h => hm h.symm
        rw [if_neg hm, hinv m]
        have hz : ([TagIterM.new tag]).countP (fun it => it.tagName == m) = 0 := by
          simp [List.countP_cons, hnew, hm2]
        rw [hz]
        omega
    · simp only [collectTagStep_neg t d its tag habs]
      apply ih
      intro m
      by_cases hm : m = tag.name
      · subst hm
        rw [if_pos rfl, hinv tag.name, if_neg habs, if_neg (by simp)]
      · rw [if_neg hm, hinv m]

theorem collectTagsAux_spec (tg : String → Option (List TagM)) :
    ∀ (gl : List String) (d : String → List String) (its : List TagIterM),
      (∀ t ∈ gl, (tg t).isSome) →
      (∀ n, its.countP (fun it => it.tagName == n) = if d n = [] then 0 else 1) →
      ∃ d2 its2, collectTagsAux tg gl (d, its) = .ok (d2, its2)
        ∧ (∀ n, d2 n = d n ++ occurrencesOf tg gl n)
        ∧ (∀ n, its2.countP (fun it => it.tagName == n)
            = if d2 n = [] then 0 else 1) := by
  intro gl
  induction gl with
  | nil =>
    intro d its _ hinv
    refine ⟨d, its, rfl, ?_, hinv⟩
    intro n
    simp [occurrencesOf]
  | cons t rest ih =>
    intro d its hall hinv
    have hsome : (tg t).isSome := hall t (List.mem_cons_self t rest)
    obtain ⟨G, hG⟩ := Option.isSome_iff_exists.mp hsome
    simp only [collectTagsAux, hG]
    obtain ⟨d2, its2, hok, hd2, hinv2⟩ :=
      ih (G.foldl (collectTagStep t) (d, its)).1
        (G.foldl (collectTagStep t) (d, its)).2
        (fun t2 ht2 => hall t2 (List.mem_cons_of_mem t ht2))
        (collect_fold_inv t G d its hinv)
    refine ⟨d2, its2, hok, ?_, hinv2⟩
    intro n
    rw [hd2 n, collect_fold_derived t G d its n]
    have hocc : occurrencesOf tg (t :: rest) n
        = ((G.filter (fun tag => tag.name == n)).map (fun _ => t))
          ++ occurrencesOf tg rest n := by
      simp [occurrencesOf, hG]
    rw [hocc, List.append_assoc]

/-- C4: when a submission lists aliases a and b that both resolve to a tag
named N, the constructed runner contains exactly one iterator for N, and the
derived-from record for N lists, in request order, every alias occurrence
that contributed N — in particular both a and b. -/
theorem tag_dedup_spec (tg : String → Option (List TagM)) (gl : List String)
    (a b N : String)
    (hall : ∀ t ∈ gl, (tg t).isSome)
    (ha : a ∈ gl) (hb : b ∈ gl)
    (hNa : ∃ tagA ∈ (tg a).getD [], tagA.name = N)
    (hNb : ∃ tagB ∈ (tg b).getD [], tagB.name = N) :
    ∃ d its, collectTags tg gl = .ok (d, its)
      ∧ its.countP (fun it => it.tagName == N) = 1
      ∧ d N = occurrencesOf tg gl N
      ∧ a ∈ d N ∧ b ∈ d N := by
  obtain ⟨d2, its2, hok, hd2, hinv2⟩ :=
    collectTagsAux_spec tg gl (fun _ => []) [] hall (by intro n; simp)
  have hmem : ∀ t, t ∈ gl → (∃ tagT ∈ (tg t).getD [], tagT.name = N) →
      t ∈ occurrencesOf tg gl N := by
    intro t htgl ⟨tagT, htagT, hname⟩
    unfold occurrencesOf
    rw [List.mem_flatten]
    refine ⟨(((tg t).getD []).filter (fun tag => tag.name == N)).map (fun _ => t),
      List.mem_map.mpr ⟨t, htgl, rfl⟩, ?_⟩
    rw [List.mem_map]
    refine ⟨tagT, ?_, rfl⟩
    rw [List.mem_filter]
    exact ⟨htagT, by simp [hname]⟩
  have haN : a ∈ occurrencesOf tg gl N := hmem a ha hNa
  have hbN : b ∈ occurrencesOf tg gl N := hmem b hb hNb
  have hdN : d2 N = occurrencesOf tg gl N := by
    rw [hd2 N]
    simp
  refine ⟨d2, its2, hok, ?_, hdN, by rw [hdN]; exact haN, by rw [hdN]; exact hbN⟩
  rw [hinv2 N, hdN, if_neg]
  intro habs
  rw [habs] at haN
  exact List.not_mem_nil a haN

theorem tag_dedup_spec_witness :
    ((∀ t ∈ ["g1", "g2"], (sampleTagGroups t).isSome)
      ∧ "g1" ∈ ["g1", "g2"] ∧ "g2" ∈ ["g1", "g2"]
      ∧ (∃ tagA ∈ (sampleTagGroups "g1").getD [], tagA.name = "T")
      ∧ (∃ tagB ∈ (sampleTagGroups "g2").getD [], tagB.name = "T")) ∧
    ∃ d its, collectTags sampleTagGroups ["g1", "g2"] = .ok (d, its)
      ∧ its.countP (fun it => it.tagName == "T") = 1
      ∧ d "T" = occurrencesOf sampleTagGroups ["g1", "g2"] "T"
      ∧ "g1" ∈ d "T" ∧ "g2" ∈ d "T" :=
  ⟨⟨by decide, by simp, by simp,
    ⟨sampleTagT, by simp [sampleTagGroups], rfl⟩,
    ⟨sampleTagT, by simp [sampleTagGroups], rfl⟩⟩,
   tag_dedup_spec sampleTagGroups ["g1", "g2"] "g1" "g2" "T" (by decide)
     (by simp) (by simp)
     ⟨sampleTagT, by simp [sampleTagGroups], rfl⟩
     ⟨sampleTagT, by simp [sampleTagGroups], rfl⟩⟩

/-! ### C2: detail sections in the collected markdown -/

theorem detailWeight_le (r : TestResultM) :
    r.detailWeight ≤ (if r.isFailedSome then 1 else 0)
      + (if r.isTimeoutOrLimit then 1 else 0) := by
  cases r with
  | testOk =>
    simp [TestResultM.detailWeight, TestResultM.isFailedSome,
      TestResultM.isTimeoutOrLimit]
  | testTimeout a b =>
    simp [TestResultM.detailWeight, TestResultM.isFailedSome,
      TestResultM.isTimeoutOrLimit]
  | testOutputLimitExceeded l =>
    simp [TestResultM.detailWeight, TestResultM.isFailedSome,
      TestResultM.isTimeoutOrLimit]
  | testFailed d =>
    cases d <;>
      simp [TestResultM.detailWeight, TestResultM.isFailedSome,
        TestResultM.isTimeoutOrLimit]

theorem zipDetail_le :
    ∀ (results : List TestResultM) (tests : List TestM),
      zipDetailCount tests results
        ≤ results.countP TestResultM.isFailedSome
          + results.countP TestResultM.isTimeoutOrLimit := by
  intro results
  induction results with
  | nil => intro tests; simp [zipDetailCount]
  | cons r rs ih =>
    intro tests
    cases tests with
    | nil => simp [zipDetailCount]
    | cons t ts =>
      have h1 := detailWeight_le r
      have h2 := ih ts
      simp only [zipDetailCount, List.zip_cons_cons, List.map_cons,
        List.sum_cons, List.countP_cons] at h2 ⊢
      by_cases hfs : r.isFailedSome <;> by_cases htl : r.isTimeoutOrLimit <;>
        simp [hfs, htl] at h1 ⊢ <;> omega

theorem detail_le_counts :
    ∀ g : TestGroupIterM,
      g.detailCount ≤ g.resultCount TestResultM.isFailedSome
        + g.resultCount TestResultM.isTimeoutOrLimit := by
  refine TestGroupIterM.detailCount.induct
    (fun g => g.detailCount ≤ g.resultCount TestResultM.isFailedSome
      + g.resultCount TestResultM.isTimeoutOrLimit)
    (fun gs => detailCountList gs
      ≤ resultCountList TestResultM.isFailedSome gs
        + resultCountList TestResultM.isTimeoutOrLimit gs)
    ?_ ?_ ?_
  · intro title subs a b c tests results ih
    have hz := zipDetail_le results tests
    simp only [TestGroupIterM.detailCount, TestGroupIterM.resultCount]
    omega
  · simp [detailCountList, resultCountList]
  · intro g gs ih1 ih2
    simp only [detailCountList, resultCountList]
    omega

theorem detail_le_counts_list (gs : List TestGroupIterM) :
    detailCountList gs
      ≤ resultCountList TestResultM.isFailedSome gs
        + resultCountList TestResultM.isTimeoutOrLimit gs := by
  induction gs with
  | nil => simp [detailCountList, resultCountList]
  | cons g tl ih =>
    have hg := detail_le_counts g
    simp only [detailCountList, resultCountList]
    omega

theorem total_le_counts (st : TestRunnerHandleM) :
    totalDetailSections st
      ≤ stateFailedSomeCount st + stateTimeoutOrLimitCount st := by
  unfold totalDetailSections stateFailedSomeCount stateTimeoutOrLimitCount
  generalize st.tagIterators = l
  induction l with
  | nil => simp
  | cons tag tl ih =>
    simp only [List.map_cons, List.sum_cons]
    have h1 : (match tag.buildResult with
        | some .buildOk => detailCountList tag.testgroupIterators
        | _ => 0)
        ≤ resultCountList TestResultM.isFailedSome tag.testgroupIterators
          + resultCountList TestResultM.isTimeoutOrLimit tag.testgroupIterators := by
      cases hb : tag.buildResult with
      | none => exact Nat.zero_le _
      | some b =>
        cases b
        case buildOk => exact detail_le_counts_list _
        all_goals exact Nat.zero_le _
    omega

theorem addTestResult_count (res : TestResultM) (p : TestResultM → Bool) :
    ∀ g g2 : TestGroupIterM,
      TestGroupIterM.addTestResult res g = .ok g2 →
      g2.resultCount p = g.resultCount p + (if p res then 1 else 0) := by
  refine TestGroupIterM.addTestResult.induct res
    (fun g => ∀ g2 : TestGroupIterM,
      TestGroupIterM.addTestResult res g = .ok g2 →
      g2.resultCount p = g.resultCount p + (if p res then 1 else 0))
    (fun i gs => ∀ gs2 : List TestGroupIterM,
      addTestResultAux res i gs = some (.ok gs2) →
      resultCountList p gs2 = resultCountList p gs + (if p res then 1 else 0))
    ?_ ?_ ?_ ?_ ?_ ?_
  · intro title subs nextSub idx checked tests results r haux ih g2 h
    unfold TestGroupIterM.addTestResult at h
    rw [haux] at h
    cases r with
    | error e => simp [Except.map] at h
    | ok subs2 =>
      simp only [Except.map, Except.ok.injEq] at h
      subst h
      have hsub := ih subs2 haux
      simp only [TestGroupIterM.resultCount]
      omega
  · intro title subs nextSub idx checked tests results haux hne ih g2 h
    unfold TestGroupIterM.addTestResult at h
    rw [haux] at h
    simp [hne] at h
  · intro title subs nextSub idx checked tests results haux hne ih g2 h
    unfold TestGroupIterM.addTestResult at h
    rw [haux] at h
    simp [hne] at h
    subst h
    simp only [TestGroupIterM.resultCount, List.countP_append,
      List.countP_cons, List.countP_nil]
    by_cases hp : p res <;> simp [hp] <;> omega
  · intro i gs2 h
    simp [addTestResultAux] at h
  · intro g tail ih gs2 h
    unfold addTestResultAux at h
    simp only [Option.some.injEq] at h
    cases hga : TestGroupIterM.addTestResult res g with
    | error e => rw [hga] at h; simp [Except.map] at h
    | ok g2 =>
      rw [hga] at h
      simp only [Except.map, Except.ok.injEq] at h
      subst h
      have := ih g2 hga
      simp only [resultCountList]
      omega
  · intro i head gs ih gs2 h
    unfold addTestResultAux at h
    cases haux : addTestResultAux res i gs with
    | none => rw [haux] at h; simp at h
    | some e =>
      rw [haux] at h
      cases e with
      | error e2 => simp [Except.map] at h
      | ok gs3 =>
        simp only [Option.map, Except.map, Option.some.injEq,
          Except.ok.injEq] at h
        subst h
        have := ih gs3 haux
        simp only [resultCountList]
        omega

theorem addTestResultAux_count (res : TestResultM) (p : TestResultM → Bool) :
    ∀ (gs : List TestGroupIterM) (i : Nat) (gs2 : List TestGroupIterM),
      addTestResultAux res i gs = some (.ok gs2) →
      resultCountList p gs2 = resultCountList p gs + (if p res then 1 else 0) := by
  intro gs
  induction gs with
  | nil => intro i gs2 h; simp [addTestResultAux] at h
  | cons g tl ih =>
    intro i gs2 h
    cases i with
    | zero =>
      unfold addTestResultAux at h
      simp only [Option.some.injEq] at h
      cases hga : TestGroupIterM.addTestResult res g with
      | error e => rw [hga] at h; simp [Except.map] at h
      | ok g2 =>
        rw [hga] at h
        simp only [Except.map, Except.ok.injEq] at h
        subst h
        have := addTestResult_count res p g g2 hga
        simp only [resultCountList]
        omega
    | succ j =>
      unfold addTestResultAux at h
      cases haux : addTestResultAux res j tl with
      | none => rw [haux] at h; simp at h
      | some e =>
        rw [haux] at h
        cases e with
        | error e2 => simp [Except.map] at h
        | ok gs3 =>
          simp only [Option.map, Except.map, Option.some.injEq,
            Except.ok.injEq] at h
          subst h
          have := ih j gs3 haux
          simp only [resultCountList]
          omega

theorem tagAdd_count (res : TestResultM) (p : TestResultM → Bool)
    (tag tag2 : TagIterM) (h : tag.addTestResult res = .ok tag2) :
    resultCountList p tag2.testgroupIterators
      = resultCountList p tag.testgroupIterators + (if p res then 1 else 0) := by
  unfold TagIterM.addTestResult at h
  cases haux : addTestResultAux res tag.nextTestgroup tag.testgroupIterators with
  | none => rw [haux] at h; simp at h
  | some e =>
    rw [haux] at h
    cases e with
    | error e2 => simp [Except.map] at h
    | ok gs2 =>
      simp only [Except.map, Except.ok.injEq] at h
      subst h
      have := addTestResultAux_count res p tag.testgroupIterators
        tag.nextTestgroup gs2 haux
      simpa using this

theorem map_sum_set_tags (p : TestResultM → Bool) :
    ∀ (l : List TagIterM) (i : Nat) (a x : TagIterM), l[i]? = some a →
      ((l.set i x).map (fun t => resultCountList p t.testgroupIterators)).sum
          + resultCountList p a.testgroupIterators
        = (l.map (fun t => resultCountList p t.testgroupIterators)).sum
          + resultCountList p x.testgroupIterators := by
  intro l
  induction l with
  | nil => intro i a x h; simp at h
  | cons b tl ih =>
    intro i a x h
    cases i with
    | zero =>
      simp only [List.getElem?_cons_zero, Option.some.injEq] at h
      subst h
      simp [List.set]
      omega
    | succ j =>
      simp only [List.getElem?_cons_succ] at h
      simp only [List.set, List.map_cons, List.sum_cons]
      have := ih j a x h
      simp only [] at this ⊢
      omega

theorem elide_eq (st : TestRunnerHandleM) (d : Option TestFailureDetailsM)
    (h : st.testsMaxShown ≤ st.testsFailed) :
    st.addTestResult (.testFailed d) = st.addTestResult (.testFailed none) := by
  unfold TestRunnerHandleM.addTestResult
  simp only [if_pos (Nat.lt_succ_of_le h)]

theorem addTestResult_handle_inv (st st2 : TestRunnerHandleM)
    (res : TestResultM) (h : st.addTestResult res = .ok st2)
    (hf : stateFailedSomeCount st ≤ st.testsFailed)
    (hm : stateFailedSomeCount st ≤ st.testsMaxShown) :
    stateFailedSomeCount st2 ≤ st2.testsFailed
    ∧ stateFailedSomeCount st2 ≤ st2.testsMaxShown
    ∧ st2.testsMaxShown = st.testsMaxShown := by
  cases res with
  | testOk =>
    simp only [TestRunnerHandleM.addTestResult] at h
    split at h
    · simp at h
    · rename_i tag hget
      cases hadd : tag.addTestResult .testOk with
      | error e => rw [hadd] at h; simp [Except.map] at h
      | ok tag2 =>
        rw [hadd] at h
        simp only [Except.map, Except.ok.injEq] at h
        have e1 : st2.testsFailed = st.testsFailed := by rw [← h]
        have e2 : st2.testsMaxShown = st.testsMaxShown := by rw [← h]
        have e3 : st2.tagIterators = st.tagIterators.set st.nextTagIndex tag2 := by
          rw [← h]
        have hset := map_sum_set_tags TestResultM.isFailedSome st.tagIterators
          st.nextTagIndex tag tag2 hget
        have hcnt := tagAdd_count .testOk TestResultM.isFailedSome tag tag2 hadd
        simp [TestResultM.isFailedSome] at hcnt
        unfold stateFailedSomeCount at hf hm ⊢
        rw [e3, e1, e2]
        refine ⟨by omega, by omega, rfl⟩
  | testTimeout a b =>
    simp only [TestRunnerHandleM.addTestResult] at h
    by_cases hfc : st.failureCause.isNone <;>
      simp only [hfc, if_true, if_false, Bool.false_eq_true, if_neg,
        ite_true, ite_false] at h <;>
    · split at h
      · simp at h
      · rename_i tag hget
        cases hadd : tag.addTestResult (.testTimeout a b) with
        | error e => rw [hadd] at h; simp [Except.map] at h
        | ok tag2 =>
          rw [hadd] at h
          simp only [Except.map, Except.ok.injEq] at h
          have e1 : st2.testsFailed = st.testsFailed := by rw [← h]
          have e2 : st2.testsMaxShown = st.testsMaxShown := by rw [← h]
          have e3 : st2.tagIterators = st.tagIterators.set st.nextTagIndex tag2 := by
            rw [← h]
          have hset := map_sum_set_tags TestResultM.isFailedSome st.tagIterators
            st.nextTagIndex tag tag2 hget
          have hcnt := tagAdd_count (.testTimeout a b) TestResultM.isFailedSome
            tag tag2 hadd
          simp [TestResultM.isFailedSome] at hcnt
          unfold stateFailedSomeCount at hf hm ⊢
          rw [e3, e1, e2]
          refine ⟨by omega, by omega, rfl⟩
  | testOutputLimitExceeded l =>
    simp only [TestRunnerHandleM.addTestResult] at h
    by_cases hfc : st.failureCause.isNone <;>
      simp only [hfc, if_true, if_false, Bool.false_eq_true, if_neg,
        ite_true, ite_false] at h <;>
    · split at h
      · simp at h
      · rename_i tag hget
        cases hadd : tag.addTestResult (.testOutputLimitExceeded l) with
        | error e => rw [hadd] at h; simp [Except.map] at h
        | ok tag2 =>
          rw [hadd] at h
          simp only [Except.map, Except.ok.injEq] at h
          have e1 : st2.testsFailed = st.testsFailed := by rw [← h]
          have e2 : st2.testsMaxShown = st.testsMaxShown := by rw [← h]
          have e3 : st2.tagIterators = st.tagIterators.set st.nextTagIndex tag2 := by
            rw [← h]
          have hset := map_sum_set_tags TestResultM.isFailedSome st.tagIterators
            st.nextTagIndex tag tag2 hget
          have hcnt := tagAdd_count (.testOutputLimitExceeded l)
            TestResultM.isFailedSome tag tag2 hadd
          simp [TestResultM.isFailedSome] at hcnt
          unfold stateFailedSomeCount at hf hm ⊢
          rw [e3, e1, e2]
          refine ⟨by omega, by omega, rfl⟩
  | testFailed d =>
    by_cases hcap : st.testsMaxShown < st.testsFailed + 1
    · simp only [TestRunnerHandleM.addTestResult, if_pos hcap] at h
      split at h
      · simp at h
      · rename_i tag hget
        cases hadd : tag.addTestResult (.testFailed none) with
        | error e => rw [hadd] at h; simp [Except.map] at h
        | ok tag2 =>
          rw [hadd] at h
          simp only [Except.map, Except.ok.injEq] at h
          have e1 : st2.testsFailed = st.testsFailed + 1 := by rw [← h]
          have e2 : st2.testsMaxShown = st.testsMaxShown := by rw [← h]
          have e3 : st2.tagIterators = st.tagIterators.set st.nextTagIndex tag2 := by
            rw [← h]
          have hset := map_sum_set_tags TestResultM.isFailedSome st.tagIterators
            st.nextTagIndex tag tag2 hget
          have hcnt := tagAdd_count (.testFailed none) TestResultM.isFailedSome
            tag tag2 hadd
          simp [TestResultM.isFailedSome] at hcnt
          unfold stateFailedSomeCount at hf hm ⊢
          rw [e3, e1, e2]
          refine ⟨by omega, by omega, rfl⟩
    · simp only [TestRunnerHandleM.addTestResult, if_neg hcap] at h
      split at h
      · simp at h
      · rename_i tag hget
        cases hadd : tag.addTestResult (.testFailed d) with
        | error e => rw [hadd] at h; simp [Except.map] at h
        | ok tag2 =>
          rw [hadd] at h
          simp only [Except.map, Except.ok.injEq] at h
          have e1 : st2.testsFailed = st.testsFailed + 1 := by rw [← h]
          have e2 : st2.testsMaxShown = st.testsMaxShown := by rw [← h]
          have e3 : st2.tagIterators = st.tagIterators.set st.nextTagIndex tag2 := by
            rw [← h]
          have hset := map_sum_set_tags TestResultM.isFailedSome st.tagIterators
            st.nextTagIndex tag tag2 hget
          have hcnt := tagAdd_count (.testFailed d) TestResultM.isFailedSome
            tag tag2 hadd
          have hd : (if TestResultM.isFailedSome (.testFailed d) then 1 else 0) ≤ 1 := by
            split <;> omega
          unfold stateFailedSomeCount at hf hm ⊢
          rw [e3, e1, e2]
          refine ⟨by omega, by omega, rfl⟩


theorem processResults_inv :
    ∀ (results : List TestResultM) (st st' : TestRunnerHandleM),
      processResults st results = .ok st' →
      stateFailedSomeCount st ≤ st.testsFailed →
      stateFailedSomeCount st ≤ st.testsMaxShown →
      stateFailedSomeCount st' ≤ st'.testsFailed
      ∧ stateFailedSomeCount st' ≤ st'.testsMaxShown
      ∧ st'.testsMaxShown = st.testsMaxShown := by
  intro results
  induction results with
  | nil =>
    intro st st' h hf hm
    simp only [processResults, Except.ok.injEq] at h
    subst h
    exact ⟨hf, hm, rfl⟩
  | cons r rest ih =>
    intro st st' h hf hm
    simp only [processResults] at h
    cases hstep : st.addTestResult r with
    | error e => rw [hstep] at h; simp at h
    | ok st2 =>
      rw [hstep] at h
      obtain ⟨hf2, hm2, hmax2⟩ := addTestResult_handle_inv st st2 r hstep hf hm
      obtain ⟨h1, h2, h3⟩ := ih st2 st' h hf2 hm2
      exact ⟨h1, h2, h3.trans hmax2⟩

/-- C2 (amended): over any sequence of recorded results, the failures stored
with retained details stay bounded by `tests_max_shown`, so the detail
sections of the final collected markdown that arise from `TestFailed`
results number at most `tests_max_shown`; timeout and output-limit results
additionally contribute one detail section each; and once `tests_failed`
reaches `tests_max_shown`, a further `TestFailed` result is recorded exactly
as if its details were elided. -/
theorem detail_cap_spec (st st' : TestRunnerHandleM)
    (results : List TestResultM)
    (hrun : processResults st results = .ok st')
    (hf : stateFailedSomeCount st ≤ st.testsFailed)
    (hm : stateFailedSomeCount st ≤ st.testsMaxShown) :
    totalDetailSections st' ≤ st'.testsMaxShown + stateTimeoutOrLimitCount st'
    ∧ st'.testsMaxShown = st.testsMaxShown
    ∧ ∀ d, st'.testsMaxShown ≤ st'.testsFailed →
        st'.addTestResult (.testFailed d)
          = st'.addTestResult (.testFailed none) := by
  obtain ⟨h1, h2, h3⟩ := processResults_inv results st st' hrun hf hm
  refine ⟨?_, h3, fun d hd => elide_eq st' d hd⟩
  have h4 := total_le_counts st'
  omega

theorem detail_cap_spec_witness :
    (processResults ceState [] = .ok ceState
      ∧ stateFailedSomeCount ceState ≤ ceState.testsFailed
      ∧ stateFailedSomeCount ceState ≤ ceState.testsMaxShown)
    ∧ (totalDetailSections ceState
        ≤ ceState.testsMaxShown + stateTimeoutOrLimitCount ceState
      ∧ ceState.testsMaxShown = ceState.testsMaxShown
      ∧ ∀ d, ceState.testsMaxShown ≤ ceState.testsFailed →
          ceState.addTestResult (.testFailed d)
            = ceState.addTestResult (.testFailed none)) := by
  have hf : stateFailedSomeCount ceState ≤ ceState.testsFailed := by
    simp [stateFailedSomeCount, ceState, ceTag, ceGroup, resultCountList,
      TestGroupIterM.resultCount]
  have hm : stateFailedSomeCount ceState ≤ ceState.testsMaxShown := by
    simp [stateFailedSomeCount, ceState, ceTag, ceGroup, resultCountList,
      TestGroupIterM.resultCount]
  exact ⟨⟨rfl, hf, hm⟩, detail_cap_spec ceState ceState [] rfl hf hm⟩

/-- C2 counterexample to the original wording: a runner with
`tests_max_shown = 0` that records a single timeout result ends finished
with one detail section in the collected markdown, exceeding
`tests_max_shown`; timeout (and output-limit) results append their detail
section regardless of the cap. -/
theorem detail_cap_counterexample :
    (processResults ceState [.testTimeout none none]).map
        (fun st => (totalDetailSections st, st.testsMaxShown, st.isFinished))
      = .ok (1, 0, true) := by
  simp [processResults, TestRunnerHandleM.addTestResult, ceState, ceTag,
    ceGroup, ceTest, TagIterM.addTestResult, addTestResultAux,
    TestGroupIterM.addTestResult, totalDetailSections, detailCountList,
    TestGroupIterM.detailCount, zipDetailCount, TestResultM.detailWeight,
    TestRunnerHandleM.isFinished, Except.map]

end Autograder
